import Mathlib

/-!
# FenrusCNCtools: height-field toolpath synthesis (`toolpath/stl.cpp`)

A shallow embedding of the path builder `line_to`, the footprint sampler
`get_height_tool`, the raster selector `create_toolpath` and the orchestrator
`process_stl_file`.

Conventions of the embedding:
* C `double` values are exact rationals (`ℚ`); rounding, infinities and NaN are
  outside the model.  In particular `Z1 += tooldepth` and `X = X + stepover` add
  exactly, where a double addition rounds and can absorb a small increment, so
  the number of passes of a loop is the one of exact arithmetic.  The sampler is
  stated over any linearly ordered field so that it can also be read over the
  reals.
* `unsigned int depth` and `std::vector` sizes are natural numbers.
* the file-scope variables `toolnr`, `tooldepth`, `last_X`, `last_Y`, `last_Z`
  and `first` are the fields of `Globals`.
* a `while` loop whose trip count depends on the data takes a `fuel` bound and
  yields `none` when the bound is exhausted.
-/

namespace Fenrus

/-! ## Data model -/

/-- One 2-point polyline with a depth for each end: what
`add_poly_vcarve(p2, Z1, Z2)` receives for `p2 = [Point(X1,Y1), Point(X2,Y2)]`. -/
structure segment where
  X1 : ℚ
  Y1 : ℚ
  Z1 : ℚ
  X2 : ℚ
  Y2 : ℚ
  Z2 : ℚ
  deriving DecidableEq, Repr

/-- The fields of `class toollevel` that `line_to` assigns, and its list of
accumulated segments. -/
structure toollevel where
  level : Int
  offset : ℚ
  diameter : ℚ
  depth : ℚ
  toolnr : Int
  minY : ℚ
  name : String
  no_sort : Bool
  toolpaths : List segment
  deriving DecidableEq, Repr

/-- The fields of `class tooldepth` that `line_to` assigns, and its list of levels. -/
structure tooldepth where
  depth : ℚ
  toolnr : Int
  diameter : ℚ
  toollevels : List toollevel
  deriving DecidableEq, Repr

/-- The part of `class inputshape` the generator touches: its name and its bands. -/
structure inputshape where
  name : String
  tooldepths : List tooldepth
  deriving DecidableEq, Repr

/-- The file-scope variables of `stl.cpp`. -/
structure Globals where
  toolnr : Int
  tooldepth : ℚ
  last_X : ℚ
  last_Y : ℚ
  last_Z : ℚ
  first : Bool
  deriving DecidableEq, Repr

/-- Modelled from the spec: `toollevel::add_poly_vcarve` is not among the sources;
the spec has it append one 2-point segment to the level's segment list. -/
def toollevel.add_poly_vcarve (lv : toollevel) (X1 Y1 X2 Y2 Z1 Z2 : ℚ) : toollevel :=
  { lv with toolpaths := lv.toolpaths ++ [⟨X1, Y1, Z1, X2, Y2, Z2⟩] }

/-! ## The path builder `line_to` -/

/-- The guard of the band-stepping loop: `Z1 < -0.000001 || Z2 < -0.00001`. -/
def in_material (Z1 Z2 : ℚ) : Prop :=
  Z1 < -(1 / 1000000) ∨ Z2 < -(1 / 100000)

instance (Z1 Z2 : ℚ) : Decidable (in_material Z1 Z2) := by
  unfold in_material; infer_instance

/-- The inner loop `while (input->tooldepths.size() <= depth) push_back(td)`, counted
down from a bound on its number of passes. -/
def push_loop (td : tooldepth) (depth : Nat) : Nat → List tooldepth → List tooldepth
  | 0, tds => tds
  | n + 1, tds => if tds.length ≤ depth then push_loop td depth n (tds ++ [td]) else tds

/-- The inner loop `while (input->tooldepths.size() <= depth) push_back(td)`; it makes
`depth + 1 - size` passes, and every band it creates is a copy of `td`. -/
def push_tooldepths (td : tooldepth) (depth : Nat) (tds : List tooldepth) : List tooldepth :=
  push_loop td depth (depth + 1 - tds.length) tds

/-- The level `line_to` creates when a band has none. -/
def new_toollevel (g : Globals) (diam Z1 : ℚ) : toollevel :=
  { level := 0, offset := diam, diameter := diam, depth := Z1, toolnr := g.toolnr,
    minY := 0, name := "Manual toolpath", no_sort := true, toolpaths := [] }

/-- The band `line_to` creates when the band list is too short. -/
def new_tooldepth (g : Globals) (diam Z1 : ℚ) : tooldepth :=
  { depth := Z1, toolnr := g.toolnr, diameter := diam, toollevels := [] }

/-- The statements of the loop body that act on band `depth` once it exists:
create level 0 when the band has no level, then append the segment to level 0. -/
def tooldepth.add_segment (g : Globals) (diam : ℚ) (td : tooldepth)
    (X1 Y1 Z1 X2 Y2 Z2 : ℚ) : tooldepth :=
  let lvs := if td.toollevels.length < 1 then td.toollevels ++ [new_toollevel g diam Z1]
             else td.toollevels
  match lvs with
  | [] => { td with toollevels := lvs }
  | lv :: rest => { td with toollevels := lv.add_poly_vcarve X1 Y1 X2 Y2 Z1 Z2 :: rest }

/-- One pass through the body of the band-stepping loop for the already
incremented band index `depth` (the `Z` updates are done by the caller). -/
def band_step (g : Globals) (diam : ℚ) (input : inputshape) (depth : Nat)
    (X1 Y1 Z1 X2 Y2 Z2 : ℚ) : inputshape :=
  let tds := push_tooldepths (new_tooldepth g diam Z1) depth input.tooldepths
  match tds[depth]? with
  | none => { input with tooldepths := tds }
  | some td =>
    { input with
      tooldepths := tds.set depth (td.add_segment g diam X1 Y1 Z1 X2 Y2 Z2) }

/-- The loop `while (Z1 < -0.000001 || Z2 < -0.00001) { depth++; ...; Z1 += tooldepth;
Z2 += tooldepth; }`, with `depth` the value before the increment. -/
def line_to_loop (g : Globals) (diam : ℚ) :
    Nat → inputshape → Nat → ℚ → ℚ → ℚ → ℚ → ℚ → ℚ → Option inputshape
  | fuel, input, depth, X1, Y1, Z1, X2, Y2, Z2 =>
    if in_material Z1 Z2 then
      match fuel with
      | 0 => none
      | fuel + 1 =>
        line_to_loop g diam fuel
          (band_step g diam input (depth + 1) X1 Y1 Z1 X2 Y2 Z2) (depth + 1)
          X1 Y1 (Z1 + g.tooldepth) X2 Y2 (Z2 + g.tooldepth)
    else some input

/-- The function `line_to`; `diam` is the value of `get_tool_diameter()`.  The result is the
new file-scope state and the shape. -/
def line_to (diam : ℚ) (fuel : Nat) (g : Globals) (input : inputshape) (X2 Y2 Z2 : ℚ) :
    Option (Globals × inputshape) :=
  let X1 := g.last_X
  let Y1 := g.last_Y
  let Z1 := g.last_Z
  let g1 : Globals := { g with last_X := X2, last_Y := Y2, last_Z := Z2 }
  if g1.first then
    some ({ g1 with first := false }, input)
  else
    match line_to_loop g1 diam fuel input 0 X1 Y1 Z1 X2 Y2 Z2 with
    | none => none
    | some input1 => some (g1, input1)

/-- The segments held by level `l` of a band (none when the level is absent). -/
def tooldepth.segs (td : tooldepth) (l : Nat) : List segment :=
  match td.toollevels[l]? with
  | none => []
  | some lv => lv.toolpaths

/-- The segments held by level `l` of band `k` (none when the band or level is absent). -/
def segs_at (s : inputshape) (k l : Nat) : List segment :=
  match s.tooldepths[k]? with
  | none => []
  | some td => td.segs l

/-- The segment the loop emits in its pass number `j` (counted from 0). -/
def emitted (T X1 Y1 Z1 X2 Y2 Z2 : ℚ) (j : Nat) : segment :=
  ⟨X1, Y1, Z1 + j * T, X2, Y2, Z2 + j * T⟩

/-- The number `n` is the trip count of the loop: the guard holds at the `Z` values of
every pass before `n` and fails after `n` additions of `T`. -/
def trip_count (T Z1 Z2 : ℚ) (n : Nat) : Prop :=
  (∀ m, m < n → in_material (Z1 + m * T) (Z2 + m * T)) ∧ ¬ in_material (Z1 + n * T) (Z2 + n * T)

/-! ## The footprint sampler `get_height_tool` -/

/-- The function `get_height_tool`; `get_height` is the height-field query and `fmax` is
the maximum of the ordered field. -/
def get_height_tool {α : Type} [LinearOrderedField α] (get_height : α → α → α)
    (X Y R : α) : α :=
  let d := get_height X Y
  let d := max d (get_height (X - R) Y)
  let d := max d (get_height (X + R) Y)
  let d := max d (get_height X (Y + R))
  let d := max d (get_height X (Y - R))
  let d := max d (get_height (X - R / 1.4) (Y - R / 1.4))
  let d := max d (get_height (X + R / 1.4) (Y + R / 1.4))
  let d := max d (get_height (X - R / 1.4) (Y + R / 1.4))
  let d := max d (get_height (X + R / 1.4) (Y - R / 1.4))
  d

/-- The nine points of the spec's stencil around `(x,y)`: the centre, the four axis points
at distance `R`, and the four diagonal points at offset `R / c` in both coordinates. -/
def stencil9 {α : Type} [LinearOrderedField α] (x y R c : α) : List (α × α) :=
  [(x, y), (x - R, y), (x + R, y), (x, y + R), (x, y - R),
   (x - R / c, y - R / c), (x + R / c, y + R / c),
   (x - R / c, y + R / c), (x + R / c, y - R / c)]

/-! ## The raster selector `create_toolpath` -/

/-- The collaborators of `stl.cpp` that are not among the sources, as parameters: the
height field, the extent of the model, and the tool library.  `get_tool_diameter t` and
`get_tool_maxdepth t` are what `get_tool_diameter()` and `get_tool_maxdepth()` return
while tool `t` is the activated tool. -/
structure Env where
  get_height : ℚ → ℚ → ℚ
  stl_image_X : ℚ
  stl_image_Y : ℚ
  tool_diam : Int → ℚ
  get_tool_stepover : Int → ℚ
  get_tool_diameter : Int → ℚ
  get_tool_maxdepth : Int → ℚ

/-- The part of `class scene` the generator reads, and the list of shapes it appends to. -/
structure scene where
  cutout_depth : ℚ
  stock_to_leave : ℚ
  finishing_pass : Bool
  tools : List Int
  shapes : List inputshape

/-- The local variables of `create_toolpath` that stay fixed during the raster, with the
value of `get_tool_diameter()` and the fuel `F` handed to every loop. -/
structure locals where
  get_tool_diameter : ℚ
  F : Nat
  diam : ℚ
  maxX : ℚ
  maxY : ℚ
  maxZ : ℚ
  stepover : ℚ
  offset : ℚ

/-- Record of one raster sample: the arguments `X`, `Y`, `R` of the `get_height_tool` call
and the `Z` handed to `line_to`.  The source keeps no such record; it makes the calls
observable. -/
structure sample where
  X : ℚ
  Y : ℚ
  R : ℚ
  Z : ℚ
  deriving DecidableEq, Repr

/-- The state threaded through the raster: file-scope variables, the shape under
construction, and the record of the samples taken so far. -/
structure raster_state where
  g : Globals
  input : inputshape
  samples : List sample
  deriving DecidableEq, Repr

/-- The body shared by both inner loops:
`d = get_height_tool(X, Y, diam); line_to(input, X, Y, -maxZ + d + offset);`. -/
def sample_point (env : Env) (v : locals) (st : raster_state) (X Y : ℚ) :
    Option raster_state :=
  let d := get_height_tool env.get_height X Y v.diam
  match line_to v.get_tool_diameter v.F st.g st.input X Y (-v.maxZ + d + v.offset) with
  | none => none
  | some (g1, input1) =>
    some ⟨g1, input1, st.samples ++ [⟨X, Y, v.diam, -v.maxZ + d + v.offset⟩]⟩

/-- The inner loop of the first block: `while (X < maxX) { ...; X = X + stepover; }`. -/
def sweep_X (env : Env) (v : locals) : Nat → raster_state → ℚ → ℚ → Option raster_state
  | fuel, st, X, Y =>
    if X < v.maxX then
      match fuel with
      | 0 => none
      | fuel + 1 =>
        match sample_point env v st X Y with
        | none => none
        | some st1 => sweep_X env v fuel st1 (X + v.stepover) Y
    else some st

/-- The outer loop of the first block:
`while (Y < maxY) { X = -diam; first = true; ...; Y = Y + stepover; }`. -/
def raster_Y (env : Env) (v : locals) : Nat → raster_state → ℚ → Option raster_state
  | fuel, st, Y =>
    if Y < v.maxY then
      match fuel with
      | 0 => none
      | fuel + 1 =>
        match sweep_X env v v.F { st with g := { st.g with first := true } } (-v.diam) Y with
        | none => none
        | some st1 => raster_Y env v fuel st1 (Y + v.stepover)
    else some st

/-- The inner loop of the second block: `while (Y < maxY) { ...; Y = Y + stepover; }`. -/
def sweep_Y (env : Env) (v : locals) : Nat → raster_state → ℚ → ℚ → Option raster_state
  | fuel, st, X, Y =>
    if Y < v.maxY then
      match fuel with
      | 0 => none
      | fuel + 1 =>
        match sample_point env v st X Y with
        | none => none
        | some st1 => sweep_Y env v fuel st1 X (Y + v.stepover)
    else some st

/-- The outer loop of the second block:
`while (X < maxX) { Y = -diam; first = true; ...; X = X + stepover; }`. -/
def raster_X (env : Env) (v : locals) : Nat → raster_state → ℚ → Option raster_state
  | fuel, st, X =>
    if X < v.maxX then
      match fuel with
      | 0 => none
      | fuel + 1 =>
        match sweep_Y env v v.F { st with g := { st.g with first := true } } X (-v.diam) with
        | none => none
        | some st1 => raster_X env v fuel st1 (X + v.stepover)
    else some st

/-- The local variables `create_toolpath` computes before its loops; `active` is the
activated tool. -/
def create_locals (env : Env) (F : Nat) (active : Int) (sc : scene) (tool : Int)
    (roughing : Bool) : locals :=
  let diam := env.tool_diam tool
  let stepover := env.get_tool_stepover tool
  { get_tool_diameter := env.get_tool_diameter active
    F := F
    diam := diam
    maxX := env.stl_image_X + diam
    maxY := env.stl_image_Y + diam
    maxZ := sc.cutout_depth
    stepover := if !roughing then stepover / 1.42 else stepover
    offset := if roughing then sc.stock_to_leave else 0 }

/-- The two raster blocks of `create_toolpath`, run on a new shape named "STL path". -/
def create_toolpath_raster (env : Env) (F : Nat) (active : Int) (g : Globals) (sc : scene)
    (tool : Int) (roughing : Bool) : Option raster_state :=
  let v := create_locals env F active sc tool roughing
  let st0 : raster_state := ⟨{ g with toolnr := tool }, ⟨"STL path", []⟩, []⟩
  let r1 := if roughing || sc.finishing_pass then raster_Y env v F st0 (-v.diam) else some st0
  match r1 with
  | none => none
  | some st1 => if !roughing then raster_X env v F st1 (-v.diam) else some st1

/-- The function `create_toolpath`: the shape is appended to `scene->shapes` (the source
appends the pointer first and fills the shape afterwards). -/
def create_toolpath (env : Env) (F : Nat) (active : Int) (g : Globals) (sc : scene)
    (tool : Int) (roughing : Bool) : Option (Globals × scene) :=
  match create_toolpath_raster env F active g sc tool roughing with
  | none => none
  | some st => some (st.g, { sc with shapes := sc.shapes ++ [st.input] })

/-! ## The orchestrator `process_stl_file` -/

/-- The loop `for (int i = count - 1; i >= 0; i--)` of `process_stl_file`; the first
argument is `i + 1`. -/
def process_stl_loop (env : Env) (F : Nat) : Nat → Globals → scene → Option (Globals × scene)
  | 0, g, sc => some (g, sc)
  | i + 1, g, sc =>
    let t := sc.tools.getD i 0
    let g1 : Globals := { g with tooldepth := if i ≠ 0 then 5000 else env.get_tool_maxdepth t }
    match create_toolpath env F t g1 sc t (decide ((i : Int) < (sc.tools.length : Int) - 1)) with
    | none => none
    | some (g2, sc2) => process_stl_loop env F i g2 sc2

/-- The function `process_stl_file` once the model is loaded, normalised and scaled
(those steps fix `env.get_height` and the extent). -/
def process_stl_file (env : Env) (F : Nat) (g : Globals) (sc : scene) :
    Option (Globals × scene) :=
  process_stl_loop env F sc.tools.length g sc

/-- One selector invocation as the spec describes it: insertion index, tool identifier,
roughing flag and slice thickness. -/
structure selector_call where
  index : Nat
  tool : Int
  roughing : Bool
  tooldepth : ℚ
  deriving DecidableEq, Repr

/-- The invocations the spec prescribes for `n` tools: insertion indices `n-1, ..., 0` in
that order, roughing exactly when the index is not `n-1`, slice thickness the rated
maximum depth of cut exactly when the index is `0` and `5000` otherwise. -/
def schedule (env : Env) (tools : List Int) : List selector_call :=
  (List.range tools.length).reverse.map fun i =>
    { index := i
      tool := tools.getD i 0
      roughing := decide (i ≠ tools.length - 1)
      tooldepth := if i = 0 then env.get_tool_maxdepth (tools.getD i 0) else 5000 }

/-- The selector invocation that `c` describes, run on the current file-scope state and
scene: the tool is activated, `tooldepth` is set, and `create_toolpath` is called. -/
def invoke (env : Env) (F : Nat) (p : Globals × scene) (c : selector_call) :
    Option (Globals × scene) :=
  create_toolpath env F c.tool { p.1 with tooldepth := c.tooldepth } p.2 c.tool c.roughing

/-- Height field with a single spike of height 1 at the origin, zero extent, and a tool
library in which every tool has diameter 2 and stepover 2. -/
def spike_env : Env :=
  { get_height := fun x y => if x = 0 ∧ y = 0 then 1 else 0
    stl_image_X := 0
    stl_image_Y := 0
    tool_diam := fun _ => 2
    get_tool_stepover := fun _ => 2
    get_tool_diameter := fun _ => 2
    get_tool_maxdepth := fun _ => 3 }

/-- Scene with cutout depth 10, no stock to leave and the single tool 7. -/
def spike_scene : scene :=
  { cutout_depth := 10, stock_to_leave := 0, finishing_pass := false, tools := [7],
    shapes := [] }

/-- A succession of path-builder calls on one shape: each entry is the point handed to
`line_to`, with a flag telling whether the caller sets `first = true` before the call. -/
def path_calls (diam : ℚ) (fuel : Nat) :
    Globals → inputshape → List (Bool × ℚ × ℚ × ℚ) → Option (Globals × inputshape)
  | g, input, [] => some (g, input)
  | g, input, (b, X, Y, Z) :: rest =>
    match line_to diam fuel (if b then { g with first := true } else g) input X Y Z with
    | none => none
    | some (g1, input1) => path_calls diam fuel g1 input1 rest

/-- The shape of the bands `line_to` builds for tool `tn` of diameter `diam`: band 0 holds
no level, and every band of index 1 or more holds exactly one level, with level index 0,
offset and diameter `diam`, tool `tn`, and `no_sort` set. -/
def bands_ok (diam : ℚ) (tn : Int) (s : inputshape) : Prop :=
  (∀ td, s.tooldepths[0]? = some td → td.toollevels = []) ∧
  ∀ k td, 1 ≤ k → s.tooldepths[k]? = some td →
    ∃ lv, td.toollevels = [lv] ∧ lv.level = 0 ∧ lv.offset = diam ∧ lv.diameter = diam ∧
      lv.toolnr = tn ∧ lv.no_sort = true

/-- Flat part of elevation 0 and extent 1 by 1, with a tool library in which every tool has
diameter 3, stepover 4 and maximum depth of cut 2. -/
def flat_env : Env :=
  { get_height := fun _ _ => 0
    stl_image_X := 1
    stl_image_Y := 1
    tool_diam := fun _ => 3
    get_tool_stepover := fun _ => 4
    get_tool_diameter := fun _ => 3
    get_tool_maxdepth := fun _ => 2 }

/-- Scene with cutout depth 10, stock to leave 0.5 and the tools 7 and 8. -/
def flat_scene : scene :=
  { cutout_depth := 10, stock_to_leave := 1 / 2, finishing_pass := false, tools := [7, 8],
    shapes := [] }

/-- The state a roughing pass of tool 8 over `flat_env` and `flat_scene` ends in, with
slice thickness 5000: two raster lines of two samples, one segment per line. -/
def flat_rough_result : raster_state :=
  { g := ⟨8, 5000, 1, 1, -(19 / 2), false⟩
    input :=
      ⟨"STL path",
        [⟨-(19 / 2), 8, 3, []⟩,
         ⟨-(19 / 2), 8, 3,
          [⟨0, 3, 3, -(19 / 2), 8, 0, "Manual toolpath", true,
            [⟨-3, -3, -(19 / 2), 1, -3, -(19 / 2)⟩, ⟨-3, 1, -(19 / 2), 1, 1, -(19 / 2)⟩]⟩]⟩]⟩
    samples := [⟨-3, -3, 3, -(19 / 2)⟩, ⟨1, -3, 3, -(19 / 2)⟩, ⟨-3, 1, 3, -(19 / 2)⟩,
                ⟨1, 1, 3, -(19 / 2)⟩] }

/-- The flat part `flat_env` with a tool library in which every tool has stepover 7.1,
so that a finishing pass steps by `7.1 / 1.42 = 5`. -/
def finish_env : Env :=
  { flat_env with get_tool_stepover := fun _ => 71 / 10 }

/-- The scene `flat_scene` with the finishing-pass flag set. -/
def finish_scene : scene :=
  { flat_scene with finishing_pass := true }

/-- The state a finishing pass of tool 8 over `finish_env` and `flat_scene` (flag off) ends
in, with slice thickness 5000: two raster lines at `X = -3` and `X = 2`. -/
def finish_result : raster_state :=
  { g := ⟨8, 5000, 2, 2, -10, false⟩
    input :=
      ⟨"STL path",
        [⟨-10, 8, 3, []⟩,
         ⟨-10, 8, 3,
          [⟨0, 3, 3, -10, 8, 0, "Manual toolpath", true,
            [⟨-3, -3, -10, -3, 2, -10⟩, ⟨2, -3, -10, 2, 2, -10⟩]⟩]⟩]⟩
    samples := [⟨-3, -3, 3, -10⟩, ⟨-3, 2, 3, -10⟩, ⟨2, -3, 3, -10⟩, ⟨2, 2, 3, -10⟩] }

/-- Two raster states that agree in everything but the stored previous point and the
first-point flag. -/
def same_but_point (st st2 : raster_state) : Prop :=
  st.input = st2.input ∧ st.samples = st2.samples ∧ st.g.toolnr = st2.g.toolnr ∧
    st.g.tooldepth = st2.g.tooldepth

/-- Two raster states inside a raster line that behave alike: they agree in everything
but the previous point and flag, and either agree in those too or both have `first` set. -/
def same_in_line (st st2 : raster_state) : Prop :=
  same_but_point st st2 ∧ (st.g = st2.g ∨ (st.g.first = true ∧ st2.g.first = true))

/-- Two runs end alike: both run out of fuel, or both return and the results are related. -/
def opt_rel (R : raster_state → raster_state → Prop) :
    Option raster_state → Option raster_state → Prop
  | none, none => True
  | some a, some b => R a b
  | _, _ => False

/-- The bands of a shape built under slice thickness `T` are nested: from band 1 on, no
band holds more segments than the band before it, all segments are in level 0, and every
segment of band `k + 1` is a segment of band `k` raised by `T`. -/
def bands_nested (T : ℚ) (s : inputshape) : Prop :=
  (∀ k, 1 ≤ k → (segs_at s (k + 1) 0).length ≤ (segs_at s k 0).length) ∧
  (∀ k l, l ≠ 0 → segs_at s k l = []) ∧
  ∀ k, 1 ≤ k → ∀ x ∈ segs_at s (k + 1) 0, ∃ y ∈ segs_at s k 0,
    x = ⟨y.X1, y.Y1, y.Z1 + T, y.X2, y.Y2, y.Z2 + T⟩

/-! ## Lemmas on one pass through the loop body -/

theorem push_tooldepths_eq (td : tooldepth) (depth : Nat) (tds : List tooldepth) :
    push_tooldepths td depth tds = tds ++ List.replicate (depth + 1 - tds.length) td := by
  unfold push_tooldepths
  generalize hn : depth + 1 - tds.length = n
  induction n generalizing tds with
  | zero => simp [push_loop]
  | succ n ih =>
    rw [push_loop, if_pos (by omega), ih _ (by simp; omega)]
    simp [List.replicate_succ]

theorem add_segment_segs (g : Globals) (diam : ℚ) (td : tooldepth)
    (X1 Y1 Z1 X2 Y2 Z2 : ℚ) (l : Nat) :
    (td.add_segment g diam X1 Y1 Z1 X2 Y2 Z2).segs l
      = td.segs l ++ (if l = 0 then [⟨X1, Y1, Z1, X2, Y2, Z2⟩] else []) := by
  rcases td with ⟨d, t, dm, lvs⟩
  cases lvs with
  | nil =>
    cases l <;>
      simp [tooldepth.add_segment, tooldepth.segs, new_toollevel, toollevel.add_poly_vcarve]
  | cons lv rest =>
    cases l <;>
      simp [tooldepth.add_segment, tooldepth.segs, toollevel.add_poly_vcarve]

/-- The band list after the growing loop: long enough for `depth`. -/
theorem push_tooldepths_length (td : tooldepth) (depth : Nat) (tds : List tooldepth) :
    depth < (push_tooldepths td depth tds).length := by
  rw [push_tooldepths_eq]; simp; omega

theorem push_tooldepths_segs (td : tooldepth) (htd : td.toollevels = []) (depth : Nat)
    (tds : List tooldepth) (k l : Nat) :
    (match (push_tooldepths td depth tds)[k]? with
      | none => []
      | some b => b.segs l)
    = (match tds[k]? with
      | none => []
      | some b => b.segs l) := by
  rw [push_tooldepths_eq]
  by_cases hk : k < tds.length
  · rw [List.getElem?_append_left hk]
  · have hk2 : tds.length ≤ k := by omega
    rw [List.getElem?_append_right hk2, List.getElem?_eq_none hk2]
    by_cases hr : k - tds.length < depth + 1 - tds.length
    · rw [List.getElem?_replicate, if_pos hr]
      simp [tooldepth.segs, htd]
    · rw [List.getElem?_replicate, if_neg hr]

theorem band_step_segs (g : Globals) (diam : ℚ) (input : inputshape) (depth : Nat)
    (X1 Y1 Z1 X2 Y2 Z2 : ℚ) (k l : Nat) :
    segs_at (band_step g diam input depth X1 Y1 Z1 X2 Y2 Z2) k l
      = segs_at input k l
        ++ (if k = depth ∧ l = 0 then [⟨X1, Y1, Z1, X2, Y2, Z2⟩] else []) := by
  have hlen := push_tooldepths_length (new_tooldepth g diam Z1) depth input.tooldepths
  have hsegs := push_tooldepths_segs (new_tooldepth g diam Z1) rfl depth input.tooldepths
  unfold band_step segs_at
  simp only
  generalize push_tooldepths (new_tooldepth g diam Z1) depth input.tooldepths = tds at hlen hsegs
  rw [List.getElem?_eq_getElem hlen]
  simp only
  rw [List.getElem?_set]
  by_cases hk : depth = k
  · subst hk
    have h1 := hsegs depth l
    rw [List.getElem?_eq_getElem hlen] at h1
    simp only at h1
    rw [← h1]
    simp [hlen, add_segment_segs]
  · have hk2 : ¬ k = depth := fun h => hk h.symm
    rw [if_neg hk, hsegs k l]
    simp [hk2]

/-! ## Lemmas on the band-stepping loop -/

theorem line_to_loop_done (g : Globals) (diam : ℚ) (fuel : Nat) (input : inputshape)
    (depth : Nat) (X1 Y1 Z1 X2 Y2 Z2 : ℚ) (h : ¬ in_material Z1 Z2) :
    line_to_loop g diam fuel input depth X1 Y1 Z1 X2 Y2 Z2 = some input := by
  unfold line_to_loop; rw [if_neg h]

theorem line_to_loop_step (g : Globals) (diam : ℚ) (fuel : Nat) (input : inputshape)
    (depth : Nat) (X1 Y1 Z1 X2 Y2 Z2 : ℚ) (h : in_material Z1 Z2) :
    line_to_loop g diam (fuel + 1) input depth X1 Y1 Z1 X2 Y2 Z2
      = line_to_loop g diam fuel
          (band_step g diam input (depth + 1) X1 Y1 Z1 X2 Y2 Z2) (depth + 1)
          X1 Y1 (Z1 + g.tooldepth) X2 Y2 (Z2 + g.tooldepth) := by
  rw [line_to_loop, if_pos h]

theorem line_to_loop_spec (g : Globals) (diam : ℚ) :
    ∀ (n fuel : Nat) (input : inputshape) (depth : Nat) (X1 Y1 Z1 X2 Y2 Z2 : ℚ),
      trip_count g.tooldepth Z1 Z2 n → n ≤ fuel →
      ∃ out, line_to_loop g diam fuel input depth X1 Y1 Z1 X2 Y2 Z2 = some out ∧
        ∀ k l, segs_at out k l = segs_at input k l ++
          (if l = 0 ∧ depth < k ∧ k ≤ depth + n
            then [emitted g.tooldepth X1 Y1 Z1 X2 Y2 Z2 (k - depth - 1)] else []) := by
  intro n
  induction n with
  | zero =>
    intro fuel input depth X1 Y1 Z1 X2 Y2 Z2 h _
    refine ⟨input, line_to_loop_done _ _ _ _ _ _ _ _ _ _ _ (by simpa using h.2), ?_⟩
    intro k l
    rw [if_neg (by omega)]; simp
  | succ n ih =>
    intro fuel input depth X1 Y1 Z1 X2 Y2 Z2 h hf
    obtain ⟨fuel, rfl⟩ : ∃ f, fuel = f + 1 := ⟨fuel - 1, by omega⟩
    have h0 : in_material Z1 Z2 := by simpa using h.1 0 (by omega)
    have hshift : trip_count g.tooldepth (Z1 + g.tooldepth) (Z2 + g.tooldepth) n := by
      constructor
      · intro m hm
        have := h.1 (m + 1) (by omega)
        push_cast at this
        convert this using 1 <;> ring
      · have := h.2
        push_cast at this
        convert this using 2 <;> ring
    obtain ⟨out, hout, hsegs⟩ := ih fuel
      (band_step g diam input (depth + 1) X1 Y1 Z1 X2 Y2 Z2) (depth + 1)
      X1 Y1 (Z1 + g.tooldepth) X2 Y2 (Z2 + g.tooldepth) hshift (by omega)
    refine ⟨out, by rw [line_to_loop_step _ _ _ _ _ _ _ _ _ _ _ h0]; exact hout, ?_⟩
    intro k l
    rw [hsegs k l, band_step_segs, List.append_assoc]
    congr 1
    by_cases hl : l = 0
    · by_cases hk1 : k = depth + 1
      · subst hk1
        simp [hl, emitted]
      · by_cases hk2 : depth + 1 < k ∧ k ≤ depth + 1 + n
        · have e : k - depth - 1 = (k - (depth + 1) - 1) + 1 := by omega
          rw [if_neg (by tauto), if_pos ⟨hl, hk2⟩, if_pos ⟨hl, by omega, by omega⟩, e]
          simp only [emitted, List.nil_append, Nat.cast_add, Nat.cast_one]
          congr 2 <;> ring
        · rw [if_neg (by tauto), if_neg (by tauto), if_neg (by omega)]; rfl
    · simp [hl]

theorem in_material_stops (T : ℚ) (hT : 0 < T) (Z1 Z2 : ℚ) :
    ∃ n : Nat, ¬ in_material (Z1 + n * T) (Z2 + n * T) := by
  obtain ⟨n, hn⟩ := exists_nat_ge (max (-Z1) (-Z2) / T)
  refine ⟨n, ?_⟩
  have h1 : max (-Z1) (-Z2) ≤ n * T := (div_le_iff₀ hT).mp hn
  have h2 : -Z1 ≤ n * T := le_trans (le_max_left _ _) h1
  have h3 : -Z2 ≤ n * T := le_trans (le_max_right _ _) h1
  unfold in_material
  push_neg
  constructor <;> linarith

/-- For a positive slice thickness the loop has a trip count. -/
theorem trip_count_exists (T : ℚ) (hT : 0 < T) (Z1 Z2 : ℚ) : ∃ n, trip_count T Z1 Z2 n := by
  classical
  have h := in_material_stops T hT Z1 Z2
  refine ⟨Nat.find h, ?_, Nat.find_spec h⟩
  intro m hm
  exact not_not.mp (Nat.find_min h hm)

/-- The trip count is the least number of additions of `T` after which both guards are off. -/
theorem trip_count_least (T Z1 Z2 : ℚ) (n : Nat) (h : trip_count T Z1 Z2 n) :
    (-(1 / 1000000) ≤ Z1 + n * T ∧ -(1 / 100000) ≤ Z2 + n * T) ∧
    ∀ m : Nat, -(1 / 1000000) ≤ Z1 + m * T ∧ -(1 / 100000) ≤ Z2 + m * T → n ≤ m := by
  constructor
  · have := h.2
    unfold in_material at this
    push_neg at this
    exact this
  · intro m hm
    by_contra hlt
    have := h.1 m (by omega)
    unfold in_material at this
    rcases this with h1 | h1 <;> linarith [hm.1, hm.2]

/-- A non-first call of `line_to` with enough fuel: the state it returns and the segments
of the shape it returns. -/
theorem line_to_spec (diam : ℚ) (g : Globals) (input : inputshape) (X2 Y2 Z2 : ℚ)
    (hfirst : g.first = false) (n : Nat) (hn : trip_count g.tooldepth g.last_Z Z2 n)
    (fuel : Nat) (hfuel : n ≤ fuel) :
    ∃ out, line_to diam fuel g input X2 Y2 Z2
        = some ({ g with last_X := X2, last_Y := Y2, last_Z := Z2 }, out) ∧
      ∀ k l, segs_at out k l = segs_at input k l ++
        (if l = 0 ∧ 1 ≤ k ∧ k ≤ n
          then [emitted g.tooldepth g.last_X g.last_Y g.last_Z X2 Y2 Z2 (k - 1)] else []) := by
  rcases g with ⟨tn, T, lX, lY, lZ, fst⟩
  simp only at hfirst hn
  subst hfirst
  obtain ⟨out, hout, hsegs⟩ := line_to_loop_spec
    ⟨tn, T, X2, Y2, Z2, false⟩ diam n fuel input 0 lX lY lZ X2 Y2 Z2 hn hfuel
  refine ⟨out, ?_, ?_⟩
  · simp only [line_to, Bool.false_eq_true, if_false, hout]
  · intro k l
    rw [hsegs k l]
    simp only [Nat.zero_add, Nat.sub_zero]
    congr 1

/-! ## Lemmas on the footprint sampler -/

/-- The sampler's value bounds the height at each point of the stencil with diagonal
offset `R / 1.4` and is attained at one of them. -/
theorem get_height_tool_max {α : Type} [LinearOrderedField α] (h : α → α → α) (x y R : α) :
    (∀ p ∈ stencil9 x y R 1.4, h p.1 p.2 ≤ get_height_tool h x y R) ∧
    ∃ p ∈ stencil9 x y R 1.4, get_height_tool h x y R = h p.1 p.2 := by
  constructor
  · intro p hp
    simp only [stencil9, List.mem_cons, List.mem_singleton, List.not_mem_nil, or_false] at hp
    simp only [get_height_tool]
    rcases hp with rfl | rfl | rfl | rfl | rfl | rfl | rfl | rfl | rfl <;>
      simp only [le_max_iff, le_refl, true_or, or_true]
  · have step : ∀ a b : α, (∃ p ∈ stencil9 x y R 1.4, a = h p.1 p.2) →
        (∃ p ∈ stencil9 x y R 1.4, b = h p.1 p.2) →
        ∃ p ∈ stencil9 x y R 1.4, max a b = h p.1 p.2 := by
      intro a b ha hb
      rcases max_choice a b with e | e <;> rw [e] <;> assumption
    simp only [get_height_tool]
    refine step _ _ (step _ _ (step _ _ (step _ _ (step _ _ (step _ _ (step _ _ (step _ _
      ?_ ?_) ?_) ?_) ?_) ?_) ?_) ?_) ?_
    · exact ⟨(x, y), by simp [stencil9], rfl⟩
    · exact ⟨(x - R, y), by simp [stencil9], rfl⟩
    · exact ⟨(x + R, y), by simp [stencil9], rfl⟩
    · exact ⟨(x, y + R), by simp [stencil9], rfl⟩
    · exact ⟨(x, y - R), by simp [stencil9], rfl⟩
    · exact ⟨(x - R / 1.4, y - R / 1.4), by simp [stencil9], rfl⟩
    · exact ⟨(x + R / 1.4, y + R / 1.4), by simp [stencil9], rfl⟩
    · exact ⟨(x - R / 1.4, y + R / 1.4), by simp [stencil9], rfl⟩
    · exact ⟨(x + R / 1.4, y - R / 1.4), by simp [stencil9], rfl⟩

theorem sqrt_two_ne_1_4 : Real.sqrt 2 ≠ 1.4 := by
  intro e
  have h2 : Real.sqrt 2 * Real.sqrt 2 = 2 := Real.mul_self_sqrt (by norm_num)
  rw [e] at h2
  norm_num at h2

/-! ## Lemmas on the orchestrator -/

theorem create_toolpath_tools (env : Env) (F : Nat) (active : Int) (g : Globals) (sc : scene)
    (tool : Int) (roughing : Bool) (g2 : Globals) (sc2 : scene)
    (h : create_toolpath env F active g sc tool roughing = some (g2, sc2)) :
    sc2.tools = sc.tools := by
  unfold create_toolpath at h
  cases hr : create_toolpath_raster env F active g sc tool roughing with
  | none => rw [hr] at h; exact absurd h (by simp)
  | some st =>
    rw [hr] at h
    simp only [Option.some.injEq, Prod.mk.injEq] at h
    rw [← h.2]

theorem process_stl_loop_eq (env : Env) (F : Nat) (ts : List Int) :
    ∀ (k : Nat) (g : Globals) (sc : scene), sc.tools = ts → k ≤ ts.length →
      process_stl_loop env F k g sc
        = ((List.range k).reverse.map fun i =>
            ({ index := i, tool := ts.getD i 0, roughing := decide (i ≠ ts.length - 1),
               tooldepth := if i = 0 then env.get_tool_maxdepth (ts.getD i 0) else 5000 }
              : selector_call)).foldlM (invoke env F) (g, sc) := by
  intro k
  induction k with
  | zero => intro g sc _ _; rfl
  | succ k ih =>
    intro g sc hts hk
    subst hts
    rw [List.range_succ, List.reverse_append, List.reverse_singleton, List.singleton_append,
      List.map_cons, List.foldlM_cons]
    have hro : decide ((k : Int) < (sc.tools.length : Int) - 1)
        = decide (k ≠ sc.tools.length - 1) := by
      apply decide_eq_decide.mpr
      omega
    have htd : (if k ≠ 0 then (5000 : ℚ) else env.get_tool_maxdepth (sc.tools.getD k 0))
        = if k = 0 then env.get_tool_maxdepth (sc.tools.getD k 0) else 5000 := by
      by_cases h0 : k = 0 <;> simp [h0]
    simp only [process_stl_loop, invoke, hro, htd]
    cases hc : create_toolpath env F (sc.tools.getD k 0)
        { g with tooldepth := if k = 0 then env.get_tool_maxdepth (sc.tools.getD k 0) else 5000 }
        sc (sc.tools.getD k 0) (decide (k ≠ sc.tools.length - 1)) with
    | none => simp
    | some r =>
      obtain ⟨g2, sc2⟩ := r
      have ht2 := create_toolpath_tools _ _ _ _ _ _ _ _ _ hc
      simp only [Option.some_bind]
      exact ih g2 sc2 ht2 (by omega)

/-! ## Lemmas on the structure of the bands -/

theorem band_step_length (g : Globals) (diam : ℚ) (input : inputshape) (depth : Nat)
    (X1 Y1 Z1 X2 Y2 Z2 : ℚ) :
    (band_step g diam input depth X1 Y1 Z1 X2 Y2 Z2).tooldepths.length
      = max input.tooldepths.length (depth + 1) := by
  have hlen := push_tooldepths_length (new_tooldepth g diam Z1) depth input.tooldepths
  have heq := push_tooldepths_eq (new_tooldepth g diam Z1) depth input.tooldepths
  unfold band_step
  simp only
  rw [List.getElem?_eq_getElem hlen]
  simp only [List.length_set]
  rw [heq, List.length_append, List.length_replicate]
  omega

theorem add_segment_levels (g : Globals) (diam : ℚ) (td : tooldepth)
    (X1 Y1 Z1 X2 Y2 Z2 : ℚ)
    (h : td.toollevels = [] ∨ ∃ lv, td.toollevels = [lv] ∧ lv.level = 0 ∧ lv.offset = diam ∧
      lv.diameter = diam ∧ lv.toolnr = g.toolnr ∧ lv.no_sort = true) :
    ∃ lv, (td.add_segment g diam X1 Y1 Z1 X2 Y2 Z2).toollevels = [lv] ∧ lv.level = 0 ∧
      lv.offset = diam ∧ lv.diameter = diam ∧ lv.toolnr = g.toolnr ∧ lv.no_sort = true := by
  rcases h with h | ⟨lv, h, h1, h2, h3, h4, h5⟩
  · refine ⟨(new_toollevel g diam Z1).add_poly_vcarve X1 Y1 X2 Y2 Z1 Z2, ?_,
      rfl, rfl, rfl, rfl, rfl⟩
    simp [tooldepth.add_segment, h]
  · refine ⟨lv.add_poly_vcarve X1 Y1 X2 Y2 Z1 Z2, ?_, h1, h2, h3, h4, h5⟩
    simp [tooldepth.add_segment, h]

/-- One pass of the loop body keeps the band structure, when the band index is at least 1
and at most one past the end of the band list (or the list is empty and the index is 1). -/
theorem band_step_bands_ok (g : Globals) (diam : ℚ) (input : inputshape) (depth : Nat)
    (X1 Y1 Z1 X2 Y2 Z2 : ℚ) (hok : bands_ok diam g.toolnr input) (hd : 1 ≤ depth)
    (hlen : depth ≤ input.tooldepths.length ∨ (input.tooldepths.length = 0 ∧ depth = 1)) :
    bands_ok diam g.toolnr (band_step g diam input depth X1 Y1 Z1 X2 Y2 Z2) := by
  have hl := push_tooldepths_length (new_tooldepth g diam Z1) depth input.tooldepths
  have heq := push_tooldepths_eq (new_tooldepth g diam Z1) depth input.tooldepths
  have hget : ∀ k td, (push_tooldepths (new_tooldepth g diam Z1) depth input.tooldepths)[k]?
      = some td → input.tooldepths[k]? = some td ∨
        (input.tooldepths.length ≤ k ∧ k ≤ depth ∧ td = new_tooldepth g diam Z1) := by
    intro k td hk
    rw [heq] at hk
    by_cases hkl : k < input.tooldepths.length
    · rw [List.getElem?_append_left hkl] at hk
      exact Or.inl hk
    · have hkl2 : input.tooldepths.length ≤ k := by omega
      rw [List.getElem?_append_right hkl2, List.getElem?_replicate] at hk
      split_ifs at hk with hr
      · simp only [Option.some.injEq] at hk
        exact Or.inr ⟨hkl2, by omega, hk.symm⟩
  unfold band_step
  simp only
  generalize push_tooldepths (new_tooldepth g diam Z1) depth input.tooldepths = tds at hl hget
  rw [List.getElem?_eq_getElem hl]
  simp only
  have hd0 := hget depth tds[depth] (List.getElem?_eq_getElem hl)
  constructor
  · intro td htd
    rw [List.getElem?_set, if_neg (by omega)] at htd
    rcases hget 0 td htd with h | ⟨_, _, h⟩
    · exact hok.1 td h
    · rw [h]; rfl
  · intro k td hk htd
    rw [List.getElem?_set] at htd
    by_cases hkd : depth = k
    · subst hkd
      rw [if_pos rfl, if_pos hl] at htd
      simp only [Option.some.injEq] at htd
      rw [← htd]
      apply add_segment_levels
      rcases hd0 with h | ⟨_, _, h⟩
      · exact Or.inr (hok.2 depth _ hd h)
      · left; rw [h]; rfl
    · rw [if_neg hkd] at htd
      rcases hget k td htd with h | ⟨h1, h2, _⟩
      · exact hok.2 k td hk h
      · omega

theorem line_to_loop_bands_ok (g : Globals) (diam : ℚ) :
    ∀ (fuel : Nat) (input : inputshape) (depth : Nat) (X1 Y1 Z1 X2 Y2 Z2 : ℚ) (out : inputshape),
      bands_ok diam g.toolnr input →
      (depth + 1 ≤ input.tooldepths.length ∨ (input.tooldepths.length = 0 ∧ depth = 0)) →
      line_to_loop g diam fuel input depth X1 Y1 Z1 X2 Y2 Z2 = some out →
      bands_ok diam g.toolnr out := by
  intro fuel
  induction fuel with
  | zero =>
    intro input depth X1 Y1 Z1 X2 Y2 Z2 out hok _ h
    unfold line_to_loop at h
    split_ifs at h
    simp only [Option.some.injEq] at h
    rw [← h]; exact hok
  | succ fuel ih =>
    intro input depth X1 Y1 Z1 X2 Y2 Z2 out hok hlen h
    by_cases hm : in_material Z1 Z2
    · rw [line_to_loop_step _ _ _ _ _ _ _ _ _ _ _ hm] at h
      refine ih _ _ _ _ _ _ _ _ out
        (band_step_bands_ok g diam input (depth + 1) X1 Y1 Z1 X2 Y2 Z2 hok (by omega)
          (by omega)) ?_ h
      left
      rw [band_step_length]
      omega
    · rw [line_to_loop_done _ _ _ _ _ _ _ _ _ _ _ hm] at h
      simp only [Option.some.injEq] at h
      rw [← h]; exact hok

/-- Whatever `line_to` returns, the file-scope state it leaves is the old one with the
previous point replaced by the new point and `first` cleared. -/
theorem line_to_globals (diam : ℚ) (fuel : Nat) (g : Globals) (input : inputshape)
    (X2 Y2 Z2 : ℚ) (g1 : Globals) (out : inputshape)
    (h : line_to diam fuel g input X2 Y2 Z2 = some (g1, out)) :
    g1 = ⟨g.toolnr, g.tooldepth, X2, Y2, Z2, false⟩ := by
  rcases g with ⟨tn, T, lX, lY, lZ, fst⟩
  cases fst with
  | true =>
    simp only [line_to, if_true, Option.some.injEq, Prod.mk.injEq] at h
    exact h.1.symm
  | false =>
    simp only [line_to, Bool.false_eq_true, if_false] at h
    cases hl : line_to_loop ⟨tn, T, X2, Y2, Z2, false⟩ diam fuel input 0 lX lY lZ X2 Y2 Z2 with
    | none => rw [hl] at h; exact absurd h (by simp)
    | some o =>
      rw [hl] at h
      simp only [Option.some.injEq, Prod.mk.injEq] at h
      exact h.1.symm

theorem line_to_bands_ok (diam : ℚ) (fuel : Nat) (g : Globals) (input : inputshape)
    (X2 Y2 Z2 : ℚ) (g1 : Globals) (out : inputshape)
    (hok : bands_ok diam g.toolnr input)
    (h : line_to diam fuel g input X2 Y2 Z2 = some (g1, out)) :
    bands_ok diam g.toolnr out := by
  rcases g with ⟨tn, T, lX, lY, lZ, fst⟩
  cases fst with
  | true =>
    simp only [line_to, if_true, Option.some.injEq, Prod.mk.injEq] at h
    rw [← h.2]; exact hok
  | false =>
    simp only [line_to, Bool.false_eq_true, if_false] at h
    cases hl : line_to_loop ⟨tn, T, X2, Y2, Z2, false⟩ diam fuel input 0 lX lY lZ X2 Y2 Z2 with
    | none => rw [hl] at h; exact absurd h (by simp)
    | some o =>
      rw [hl] at h
      simp only [Option.some.injEq, Prod.mk.injEq] at h
      rw [← h.2]
      exact line_to_loop_bands_ok ⟨tn, T, X2, Y2, Z2, false⟩ diam fuel input 0
        lX lY lZ X2 Y2 Z2 o hok (by omega) hl

/-! ## Lemmas on fuel and on successions of calls -/

theorem line_to_loop_mono (g : Globals) (diam : ℚ) :
    ∀ (fuel fuel2 : Nat) (input : inputshape) (depth : Nat) (X1 Y1 Z1 X2 Y2 Z2 : ℚ)
      (out : inputshape), fuel ≤ fuel2 →
      line_to_loop g diam fuel input depth X1 Y1 Z1 X2 Y2 Z2 = some out →
      line_to_loop g diam fuel2 input depth X1 Y1 Z1 X2 Y2 Z2 = some out := by
  intro fuel
  induction fuel with
  | zero =>
    intro fuel2 input depth X1 Y1 Z1 X2 Y2 Z2 out _ h
    unfold line_to_loop at h
    split_ifs at h with hm
    rw [line_to_loop_done _ _ _ _ _ _ _ _ _ _ _ hm]
    exact h
  | succ fuel ih =>
    intro fuel2 input depth X1 Y1 Z1 X2 Y2 Z2 out hle h
    by_cases hm : in_material Z1 Z2
    · obtain ⟨f2, rfl⟩ : ∃ f, fuel2 = f + 1 := ⟨fuel2 - 1, by omega⟩
      rw [line_to_loop_step _ _ _ _ _ _ _ _ _ _ _ hm] at h ⊢
      exact ih f2 _ _ _ _ _ _ _ _ out (by omega) h
    · rw [line_to_loop_done _ _ _ _ _ _ _ _ _ _ _ hm] at h ⊢
      exact h

theorem line_to_mono (diam : ℚ) (fuel fuel2 : Nat) (g : Globals) (input : inputshape)
    (X2 Y2 Z2 : ℚ) (r : Globals × inputshape) (hle : fuel ≤ fuel2)
    (h : line_to diam fuel g input X2 Y2 Z2 = some r) :
    line_to diam fuel2 g input X2 Y2 Z2 = some r := by
  rcases g with ⟨tn, T, lX, lY, lZ, fst⟩
  cases fst with
  | true =>
    simp only [line_to, if_true] at h ⊢
    exact h
  | false =>
    simp only [line_to, Bool.false_eq_true, if_false] at h ⊢
    cases hl : line_to_loop ⟨tn, T, X2, Y2, Z2, false⟩ diam fuel input 0 lX lY lZ X2 Y2 Z2 with
    | none => rw [hl] at h; exact absurd h (by simp)
    | some o =>
      rw [hl] at h
      rw [line_to_loop_mono _ _ fuel fuel2 _ _ _ _ _ _ _ _ o hle hl]
      exact h

/-- With a positive slice thickness every call of `line_to` returns, given enough fuel. -/
theorem line_to_total (diam : ℚ) (g : Globals) (input : inputshape) (X2 Y2 Z2 : ℚ)
    (hT : 0 < g.tooldepth) : ∃ N r, line_to diam N g input X2 Y2 Z2 = some r := by
  cases hf : g.first with
  | true =>
    refine ⟨0, (⟨g.toolnr, g.tooldepth, X2, Y2, Z2, false⟩, input), ?_⟩
    simp only [line_to, hf, if_true]
  | false =>
    obtain ⟨n, hn⟩ := trip_count_exists g.tooldepth hT g.last_Z Z2
    obtain ⟨out, ho, _⟩ := line_to_spec diam g input X2 Y2 Z2 hf n hn n le_rfl
    exact ⟨n, _, ho⟩

theorem path_calls_total (diam : ℚ) (calls : List (Bool × ℚ × ℚ × ℚ)) :
    ∀ (g : Globals) (input : inputshape), 0 < g.tooldepth →
      ∃ N r, ∀ fuel, N ≤ fuel → path_calls diam fuel g input calls = some r := by
  induction calls with
  | nil => intro g input _; exact ⟨0, (g, input), fun _ _ => rfl⟩
  | cons c rest ih =>
    intro g input hT
    obtain ⟨b, X, Y, Z⟩ := c
    have hT2 : 0 < (if b then { g with first := true } else g).tooldepth := by
      cases b <;> exact hT
    obtain ⟨N1, ⟨g1, s1⟩, h1⟩ := line_to_total diam _ input X Y Z hT2
    have hg1 := line_to_globals _ _ _ _ _ _ _ _ _ h1
    have hT3 : 0 < g1.tooldepth := by
      rw [hg1]; cases b <;> exact hT
    obtain ⟨N2, r, h2⟩ := ih g1 s1 hT3
    refine ⟨max N1 N2, r, ?_⟩
    intro fuel hfuel
    simp only [path_calls]
    rw [line_to_mono diam N1 fuel _ _ _ _ _ _ (le_trans (le_max_left _ _) hfuel) h1]
    exact h2 fuel (le_trans (le_max_right _ _) hfuel)

theorem path_calls_bands_ok (diam : ℚ) (fuel : Nat) (calls : List (Bool × ℚ × ℚ × ℚ)) :
    ∀ (g : Globals) (input : inputshape) (g1 : Globals) (out : inputshape),
      bands_ok diam g.toolnr input → path_calls diam fuel g input calls = some (g1, out) →
      bands_ok diam g.toolnr out := by
  induction calls with
  | nil =>
    intro g input g1 out hok h
    simp only [path_calls, Option.some.injEq, Prod.mk.injEq] at h
    rw [← h.2]; exact hok
  | cons c rest ih =>
    intro g input g1 out hok h
    obtain ⟨b, X, Y, Z⟩ := c
    simp only [path_calls] at h
    cases hl : line_to diam fuel (if b then { g with first := true } else g) input X Y Z with
    | none => rw [hl] at h; exact absurd h (by simp)
    | some r =>
      obtain ⟨g2, s2⟩ := r
      rw [hl] at h
      have htn : (if b then { g with first := true } else g).toolnr = g.toolnr := by
        cases b <;> rfl
      have hok2 := line_to_bands_ok diam fuel _ input X Y Z g2 s2 (by rw [htn]; exact hok) hl
      have hg2 := line_to_globals _ _ _ _ _ _ _ _ _ hl
      have htn2 : g2.toolnr = g.toolnr := by rw [hg2]; exact htn
      rw [htn] at hok2
      have := ih g2 s2 g1 out (by rw [htn2]; exact hok2) h
      rw [htn2] at this
      exact this

theorem line_to_loop_length (g : Globals) (diam : ℚ) :
    ∀ (fuel : Nat) (input : inputshape) (depth : Nat) (X1 Y1 Z1 X2 Y2 Z2 : ℚ) (out : inputshape),
      line_to_loop g diam fuel input depth X1 Y1 Z1 X2 Y2 Z2 = some out →
      input.tooldepths.length ≤ out.tooldepths.length := by
  intro fuel
  induction fuel with
  | zero =>
    intro input depth X1 Y1 Z1 X2 Y2 Z2 out h
    unfold line_to_loop at h
    split_ifs at h
    simp only [Option.some.injEq] at h
    rw [← h]
  | succ fuel ih =>
    intro input depth X1 Y1 Z1 X2 Y2 Z2 out h
    by_cases hm : in_material Z1 Z2
    · rw [line_to_loop_step _ _ _ _ _ _ _ _ _ _ _ hm] at h
      have := ih _ _ _ _ _ _ _ _ out h
      rw [band_step_length] at this
      omega
    · rw [line_to_loop_done _ _ _ _ _ _ _ _ _ _ _ hm] at h
      simp only [Option.some.injEq] at h
      rw [← h]

theorem line_to_length (diam : ℚ) (fuel : Nat) (g : Globals) (input : inputshape)
    (X2 Y2 Z2 : ℚ) (g1 : Globals) (out : inputshape)
    (h : line_to diam fuel g input X2 Y2 Z2 = some (g1, out)) :
    input.tooldepths.length ≤ out.tooldepths.length := by
  rcases g with ⟨tn, T, lX, lY, lZ, fst⟩
  cases fst with
  | true =>
    simp only [line_to, if_true, Option.some.injEq, Prod.mk.injEq] at h
    rw [← h.2]
  | false =>
    simp only [line_to, Bool.false_eq_true, if_false] at h
    cases hl : line_to_loop ⟨tn, T, X2, Y2, Z2, false⟩ diam fuel input 0 lX lY lZ X2 Y2 Z2 with
    | none => rw [hl] at h; exact absurd h (by simp)
    | some o =>
      rw [hl] at h
      simp only [Option.some.injEq, Prod.mk.injEq] at h
      rw [← h.2]
      exact line_to_loop_length _ _ _ _ _ _ _ _ _ _ _ o hl

theorem path_calls_length (diam : ℚ) (fuel : Nat) (calls : List (Bool × ℚ × ℚ × ℚ)) :
    ∀ (g : Globals) (input : inputshape) (g1 : Globals) (out : inputshape),
      path_calls diam fuel g input calls = some (g1, out) →
      input.tooldepths.length ≤ out.tooldepths.length := by
  induction calls with
  | nil =>
    intro g input g1 out h
    simp only [path_calls, Option.some.injEq, Prod.mk.injEq] at h
    rw [← h.2]
  | cons c rest ih =>
    intro g input g1 out h
    obtain ⟨b, X, Y, Z⟩ := c
    simp only [path_calls] at h
    cases hl : line_to diam fuel (if b then { g with first := true } else g) input X Y Z with
    | none => rw [hl] at h; exact absurd h (by simp)
    | some r =>
      obtain ⟨g2, s2⟩ := r
      rw [hl] at h
      exact le_trans (line_to_length _ _ _ _ _ _ _ _ _ hl) (ih g2 s2 g1 out h)

theorem path_calls_append (diam : ℚ) (fuel : Nat) (pre post : List (Bool × ℚ × ℚ × ℚ)) :
    ∀ (g : Globals) (input : inputshape),
      path_calls diam fuel g input (pre ++ post)
        = match path_calls diam fuel g input pre with
          | none => none
          | some (g1, s1) => path_calls diam fuel g1 s1 post := by
  induction pre with
  | nil => intro g input; rfl
  | cons c rest ih =>
    intro g input
    obtain ⟨b, X, Y, Z⟩ := c
    simp only [List.cons_append, path_calls]
    cases hl : line_to diam fuel (if b then { g with first := true } else g) input X Y Z with
    | none => rfl
    | some r =>
      obtain ⟨g2, s2⟩ := r
      exact ih g2 s2

theorem bands_ok_empty (diam : ℚ) (tn : Int) (nm : String) : bands_ok diam tn ⟨nm, []⟩ :=
  ⟨fun td h => by simp at h, fun k td _ h => by simp at h⟩

/-! ## Lemmas on the raster loops -/

/-- What a non-first call of `line_to` returned, whatever the fuel was: the segments of the
shape, for the trip count `n` of the loop. -/
theorem line_to_segs_of_some (diam : ℚ) (fuel : Nat) (g : Globals) (input : inputshape)
    (X2 Y2 Z2 : ℚ) (g1 : Globals) (out : inputshape) (hfirst : g.first = false) (n : Nat)
    (hn : trip_count g.tooldepth g.last_Z Z2 n)
    (h : line_to diam fuel g input X2 Y2 Z2 = some (g1, out)) :
    ∀ k l, segs_at out k l = segs_at input k l ++
      (if l = 0 ∧ 1 ≤ k ∧ k ≤ n
        then [emitted g.tooldepth g.last_X g.last_Y g.last_Z X2 Y2 Z2 (k - 1)] else []) := by
  obtain ⟨out2, ho, hs⟩ := line_to_spec diam g input X2 Y2 Z2 hfirst n hn (max fuel n)
    (le_max_right _ _)
  have h2 := line_to_mono diam fuel (max fuel n) g input X2 Y2 Z2 _ (le_max_left _ _) h
  rw [ho] at h2
  simp only [Option.some.injEq, Prod.mk.injEq] at h2
  rw [← h2.2]
  exact hs

theorem line_to_first (diam : ℚ) (fuel : Nat) (g : Globals) (input : inputshape)
    (X2 Y2 Z2 : ℚ) (hfirst : g.first = true) :
    line_to diam fuel g input X2 Y2 Z2
      = some (⟨g.toolnr, g.tooldepth, X2, Y2, Z2, false⟩, input) := by
  simp only [line_to, hfirst, if_true]

theorem sample_point_some (env : Env) (v : locals) (st st1 : raster_state) (X Y : ℚ)
    (h : sample_point env v st X Y = some st1) :
    line_to v.get_tool_diameter v.F st.g st.input X Y
        (-v.maxZ + get_height_tool env.get_height X Y v.diam + v.offset)
      = some (st1.g, st1.input) ∧
    st1.samples = st.samples ++
      [⟨X, Y, v.diam, -v.maxZ + get_height_tool env.get_height X Y v.diam + v.offset⟩] := by
  unfold sample_point at h
  simp only at h
  cases hl : line_to v.get_tool_diameter v.F st.g st.input X Y
      (-v.maxZ + get_height_tool env.get_height X Y v.diam + v.offset) with
  | none => rw [hl] at h; exact absurd h (by simp)
  | some r =>
    obtain ⟨g1, s1⟩ := r
    rw [hl] at h
    simp only [Option.some.injEq] at h
    rw [← h]
    exact ⟨rfl, rfl⟩

theorem sweep_X_inv (env : Env) (v : locals) (P : raster_state → Prop) (Y : ℚ)
    (hstep : ∀ st X st1, P st → sample_point env v st X Y = some st1 → P st1) :
    ∀ (fuel : Nat) (st : raster_state) (X : ℚ) (out : raster_state),
      P st → sweep_X env v fuel st X Y = some out → P out := by
  intro fuel
  induction fuel with
  | zero =>
    intro st X out hP h
    unfold sweep_X at h
    split_ifs at h
    simp only [Option.some.injEq] at h
    rw [← h]; exact hP
  | succ fuel ih =>
    intro st X out hP h
    unfold sweep_X at h
    split_ifs at h
    · simp only at h
      cases hs : sample_point env v st X Y with
      | none => rw [hs] at h; exact absurd h (by simp)
      | some st1 =>
        rw [hs] at h
        exact ih st1 _ out (hstep st X st1 hP hs) h
    · simp only [Option.some.injEq] at h
      rw [← h]; exact hP

theorem sweep_Y_inv (env : Env) (v : locals) (P : raster_state → Prop) (X : ℚ)
    (hstep : ∀ st Y st1, P st → sample_point env v st X Y = some st1 → P st1) :
    ∀ (fuel : Nat) (st : raster_state) (Y : ℚ) (out : raster_state),
      P st → sweep_Y env v fuel st X Y = some out → P out := by
  intro fuel
  induction fuel with
  | zero =>
    intro st Y out hP h
    unfold sweep_Y at h
    split_ifs at h
    simp only [Option.some.injEq] at h
    rw [← h]; exact hP
  | succ fuel ih =>
    intro st Y out hP h
    unfold sweep_Y at h
    split_ifs at h
    · simp only at h
      cases hs : sample_point env v st X Y with
      | none => rw [hs] at h; exact absurd h (by simp)
      | some st1 =>
        rw [hs] at h
        exact ih st1 _ out (hstep st Y st1 hP hs) h
    · simp only [Option.some.injEq] at h
      rw [← h]; exact hP

/-- Invariant rule for the first raster block: `I` holds between raster lines, `J Y` holds
inside the line at `Y`. -/
theorem raster_Y_inv (env : Env) (v : locals) (I : raster_state → Prop)
    (J : ℚ → raster_state → Prop)
    (hin : ∀ Y st, I st → J Y { st with g := { st.g with first := true } })
    (hstep : ∀ Y st X st1, J Y st → sample_point env v st X Y = some st1 → J Y st1)
    (hout : ∀ Y st, J Y st → I st) :
    ∀ (fuel : Nat) (st : raster_state) (Y : ℚ) (out : raster_state),
      I st → raster_Y env v fuel st Y = some out → I out := by
  intro fuel
  induction fuel with
  | zero =>
    intro st Y out hI h
    unfold raster_Y at h
    split_ifs at h
    simp only [Option.some.injEq] at h
    rw [← h]; exact hI
  | succ fuel ih =>
    intro st Y out hI h
    unfold raster_Y at h
    split_ifs at h
    · simp only at h
      cases hs : sweep_X env v v.F { st with g := { st.g with first := true } } (-v.diam) Y with
      | none => rw [hs] at h; exact absurd h (by simp)
      | some st1 =>
        rw [hs] at h
        have hJ := sweep_X_inv env v (J Y) Y (hstep Y) v.F _ _ st1 (hin Y st hI) hs
        exact ih st1 _ out (hout Y st1 hJ) h
    · simp only [Option.some.injEq] at h
      rw [← h]; exact hI

/-- Invariant rule for the second raster block: `I` holds between raster lines, `J X` holds
inside the line at `X`. -/
theorem raster_X_inv (env : Env) (v : locals) (I : raster_state → Prop)
    (J : ℚ → raster_state → Prop)
    (hin : ∀ X st, I st → J X { st with g := { st.g with first := true } })
    (hstep : ∀ X st Y st1, J X st → sample_point env v st X Y = some st1 → J X st1)
    (hout : ∀ X st, J X st → I st) :
    ∀ (fuel : Nat) (st : raster_state) (X : ℚ) (out : raster_state),
      I st → raster_X env v fuel st X = some out → I out := by
  intro fuel
  induction fuel with
  | zero =>
    intro st X out hI h
    unfold raster_X at h
    split_ifs at h
    simp only [Option.some.injEq] at h
    rw [← h]; exact hI
  | succ fuel ih =>
    intro st X out hI h
    unfold raster_X at h
    split_ifs at h
    · simp only at h
      cases hs : sweep_Y env v v.F { st with g := { st.g with first := true } } X (-v.diam) with
      | none => rw [hs] at h; exact absurd h (by simp)
      | some st1 =>
        rw [hs] at h
        have hJ := sweep_Y_inv env v (J X) X (hstep X) v.F _ _ st1 (hin X st hI) hs
        exact ih st1 _ out (hout X st1 hJ) h
    · simp only [Option.some.injEq] at h
      rw [← h]; exact hI

/-- Invariant rule for the whole raster of `create_toolpath`. -/
theorem create_toolpath_raster_inv (env : Env) (F : Nat) (active : Int) (g : Globals)
    (sc : scene) (tool : Int) (roughing : Bool) (I : raster_state → Prop)
    (J : raster_state → Prop)
    (hin : ∀ st, I st → J { st with g := { st.g with first := true } })
    (hstep : ∀ st X Y st1, J st →
      sample_point env (create_locals env F active sc tool roughing) st X Y = some st1 → J st1)
    (hout : ∀ st, J st → I st)
    (h0 : I ⟨{ g with toolnr := tool }, ⟨"STL path", []⟩, []⟩)
    (out : raster_state)
    (h : create_toolpath_raster env F active g sc tool roughing = some out) : I out := by
  unfold create_toolpath_raster at h
  simp only at h
  have hY := raster_Y_inv env (create_locals env F active sc tool roughing) I (fun _ => J)
    (fun _ => hin) (fun _ st X st1 => hstep st X _ st1) (fun _ => hout)
  have hX := raster_X_inv env (create_locals env F active sc tool roughing) I (fun _ => J)
    (fun _ => hin) (fun X st Y st1 => hstep st X Y st1) (fun _ => hout)
  by_cases hb : (roughing || sc.finishing_pass) = true
  · rw [if_pos hb] at h
    cases hr : raster_Y env (create_locals env F active sc tool roughing) F
        ⟨{ g with toolnr := tool }, ⟨"STL path", []⟩, []⟩
        (-(create_locals env F active sc tool roughing).diam) with
    | none => rw [hr] at h; exact absurd h (by simp)
    | some st1 =>
      rw [hr] at h
      simp only at h
      have h1 := hY F _ _ st1 h0 hr
      split_ifs at h
      · exact hX F _ _ out h1 h
      · simp only [Option.some.injEq] at h
        rw [← h]; exact h1
  · rw [if_neg hb] at h
    simp only at h
    split_ifs at h
    · exact hX F _ _ out h0 h
    · simp only [Option.some.injEq] at h
      rw [← h]; exact h0

/-! ## Lemmas on what a call emits, whatever the fuel -/

theorem line_to_loop_emits (g : Globals) (diam : ℚ) :
    ∀ (fuel : Nat) (input : inputshape) (depth : Nat) (X1 Y1 Z1 X2 Y2 Z2 : ℚ) (out : inputshape),
      line_to_loop g diam fuel input depth X1 Y1 Z1 X2 Y2 Z2 = some out →
      ∀ k l, ∃ new, segs_at out k l = segs_at input k l ++ new ∧
        ∀ s ∈ new, s.X1 = X1 ∧ s.Y1 = Y1 ∧ s.X2 = X2 ∧ s.Y2 = Y2 := by
  intro fuel
  induction fuel with
  | zero =>
    intro input depth X1 Y1 Z1 X2 Y2 Z2 out h k l
    unfold line_to_loop at h
    split_ifs at h
    simp only [Option.some.injEq] at h
    subst h
    exact ⟨[], by simp, fun s hs => absurd hs (List.not_mem_nil s)⟩
  | succ fuel ih =>
    intro input depth X1 Y1 Z1 X2 Y2 Z2 out h k l
    by_cases hm : in_material Z1 Z2
    · rw [line_to_loop_step _ _ _ _ _ _ _ _ _ _ _ hm] at h
      obtain ⟨new, hnew, hall⟩ := ih _ _ _ _ _ _ _ _ out h k l
      rw [band_step_segs, List.append_assoc] at hnew
      refine ⟨_, hnew, ?_⟩
      intro s hs
      rw [List.mem_append] at hs
      rcases hs with hs | hs
      · split_ifs at hs
        · rw [List.mem_singleton] at hs
          subst hs
          exact ⟨rfl, rfl, rfl, rfl⟩
        · exact absurd hs (List.not_mem_nil s)
      · exact hall s hs
    · rw [line_to_loop_done _ _ _ _ _ _ _ _ _ _ _ hm] at h
      simp only [Option.some.injEq] at h
      subst h
      exact ⟨[], by simp, fun s hs => absurd hs (List.not_mem_nil s)⟩

/-- Every segment a call of `line_to` adds joins the stored previous point to the new
point, and a call with `first` set adds none. -/
theorem line_to_emits (diam : ℚ) (fuel : Nat) (g : Globals) (input : inputshape)
    (X2 Y2 Z2 : ℚ) (g1 : Globals) (out : inputshape)
    (h : line_to diam fuel g input X2 Y2 Z2 = some (g1, out)) :
    ∀ k l, ∃ new, segs_at out k l = segs_at input k l ++ new ∧
      ∀ s ∈ new, g.first = false ∧ s.X1 = g.last_X ∧ s.Y1 = g.last_Y ∧ s.X2 = X2 ∧
        s.Y2 = Y2 := by
  rcases g with ⟨tn, T, lX, lY, lZ, fst⟩
  cases fst with
  | true =>
    simp only [line_to, if_true, Option.some.injEq, Prod.mk.injEq] at h
    intro k l
    rw [← h.2]
    exact ⟨[], by simp, fun s hs => absurd hs (List.not_mem_nil s)⟩
  | false =>
    simp only [line_to, Bool.false_eq_true, if_false] at h
    cases hl : line_to_loop ⟨tn, T, X2, Y2, Z2, false⟩ diam fuel input 0 lX lY lZ X2 Y2 Z2 with
    | none => rw [hl] at h; exact absurd h (by simp)
    | some o =>
      rw [hl] at h
      simp only [Option.some.injEq, Prod.mk.injEq] at h
      intro k l
      rw [← h.2]
      obtain ⟨new, hnew, hall⟩ := line_to_loop_emits _ _ _ _ _ _ _ _ _ _ _ o hl k l
      exact ⟨new, hnew, fun s hs => ⟨rfl, hall s hs⟩⟩

/-! ## Invariant rules that follow the loop variable -/

theorem sweep_X_inv_idx (env : Env) (v : locals) (P : ℚ → raster_state → Prop) (Y : ℚ)
    (hstep : ∀ st X st1, P X st → X < v.maxX → sample_point env v st X Y = some st1 →
      P (X + v.stepover) st1) :
    ∀ (fuel : Nat) (st : raster_state) (X : ℚ) (out : raster_state),
      P X st → sweep_X env v fuel st X Y = some out → ∃ X1, P X1 out := by
  intro fuel
  induction fuel with
  | zero =>
    intro st X out hP h
    unfold sweep_X at h
    split_ifs at h
    simp only [Option.some.injEq] at h
    rw [← h]; exact ⟨X, hP⟩
  | succ fuel ih =>
    intro st X out hP h
    unfold sweep_X at h
    split_ifs at h with hlt
    · simp only at h
      cases hs : sample_point env v st X Y with
      | none => rw [hs] at h; exact absurd h (by simp)
      | some st1 =>
        rw [hs] at h
        exact ih st1 _ out (hstep st X st1 hP hlt hs) h
    · simp only [Option.some.injEq] at h
      rw [← h]; exact ⟨X, hP⟩

theorem sweep_Y_inv_idx (env : Env) (v : locals) (P : ℚ → raster_state → Prop) (X : ℚ)
    (hstep : ∀ st Y st1, P Y st → Y < v.maxY → sample_point env v st X Y = some st1 →
      P (Y + v.stepover) st1) :
    ∀ (fuel : Nat) (st : raster_state) (Y : ℚ) (out : raster_state),
      P Y st → sweep_Y env v fuel st X Y = some out → ∃ Y1, P Y1 out := by
  intro fuel
  induction fuel with
  | zero =>
    intro st Y out hP h
    unfold sweep_Y at h
    split_ifs at h
    simp only [Option.some.injEq] at h
    rw [← h]; exact ⟨Y, hP⟩
  | succ fuel ih =>
    intro st Y out hP h
    unfold sweep_Y at h
    split_ifs at h with hlt
    · simp only at h
      cases hs : sample_point env v st X Y with
      | none => rw [hs] at h; exact absurd h (by simp)
      | some st1 =>
        rw [hs] at h
        exact ih st1 _ out (hstep st Y st1 hP hlt hs) h
    · simp only [Option.some.injEq] at h
      rw [← h]; exact ⟨Y, hP⟩

/-- Invariant rule for the first raster block with the inner invariant `J Y X` following
both loop variables. -/
theorem raster_Y_inv_idx (env : Env) (v : locals) (I : ℚ → raster_state → Prop)
    (J : ℚ → ℚ → raster_state → Prop)
    (hin : ∀ Y st, I Y st → Y < v.maxY →
      J Y (-v.diam) { st with g := { st.g with first := true } })
    (hstep : ∀ Y st X st1, J Y X st → X < v.maxX → sample_point env v st X Y = some st1 →
      J Y (X + v.stepover) st1)
    (hout : ∀ Y X st, J Y X st → I (Y + v.stepover) st) :
    ∀ (fuel : Nat) (st : raster_state) (Y : ℚ) (out : raster_state),
      I Y st → raster_Y env v fuel st Y = some out → ∃ Y1, I Y1 out := by
  intro fuel
  induction fuel with
  | zero =>
    intro st Y out hI h
    unfold raster_Y at h
    split_ifs at h
    simp only [Option.some.injEq] at h
    rw [← h]; exact ⟨Y, hI⟩
  | succ fuel ih =>
    intro st Y out hI h
    unfold raster_Y at h
    split_ifs at h with hlt
    · simp only at h
      cases hs : sweep_X env v v.F { st with g := { st.g with first := true } } (-v.diam) Y with
      | none => rw [hs] at h; exact absurd h (by simp)
      | some st1 =>
        rw [hs] at h
        obtain ⟨X1, hJ⟩ := sweep_X_inv_idx env v (J Y) Y (hstep Y) v.F _ _ st1
          (hin Y st hI hlt) hs
        exact ih st1 _ out (hout Y X1 st1 hJ) h
    · simp only [Option.some.injEq] at h
      rw [← h]; exact ⟨Y, hI⟩

/-- Invariant rule for the second raster block with the inner invariant `J X Y` following
both loop variables. -/
theorem raster_X_inv_idx (env : Env) (v : locals) (I : ℚ → raster_state → Prop)
    (J : ℚ → ℚ → raster_state → Prop)
    (hin : ∀ X st, I X st → X < v.maxX →
      J X (-v.diam) { st with g := { st.g with first := true } })
    (hstep : ∀ X st Y st1, J X Y st → Y < v.maxY → sample_point env v st X Y = some st1 →
      J X (Y + v.stepover) st1)
    (hout : ∀ X Y st, J X Y st → I (X + v.stepover) st) :
    ∀ (fuel : Nat) (st : raster_state) (X : ℚ) (out : raster_state),
      I X st → raster_X env v fuel st X = some out → ∃ X1, I X1 out := by
  intro fuel
  induction fuel with
  | zero =>
    intro st X out hI h
    unfold raster_X at h
    split_ifs at h
    simp only [Option.some.injEq] at h
    rw [← h]; exact ⟨X, hI⟩
  | succ fuel ih =>
    intro st X out hI h
    unfold raster_X at h
    split_ifs at h with hlt
    · simp only at h
      cases hs : sweep_Y env v v.F { st with g := { st.g with first := true } } X (-v.diam) with
      | none => rw [hs] at h; exact absurd h (by simp)
      | some st1 =>
        rw [hs] at h
        obtain ⟨Y1, hJ⟩ := sweep_Y_inv_idx env v (J X) X (hstep X) v.F _ _ st1
          (hin X st hI hlt) hs
        exact ih st1 _ out (hout X Y1 st1 hJ) h
    · simp only [Option.some.injEq] at h
      rw [← h]; exact ⟨X, hI⟩

/-- The two blocks of `create_toolpath_raster`, one after the other. -/
theorem create_toolpath_raster_blocks (env : Env) (F : Nat) (active : Int) (g : Globals)
    (sc : scene) (tool : Int) (roughing : Bool) (out : raster_state)
    (h : create_toolpath_raster env F active g sc tool roughing = some out) :
    ∃ mid,
      (if roughing || sc.finishing_pass
        then raster_Y env (create_locals env F active sc tool roughing) F
          ⟨{ g with toolnr := tool }, ⟨"STL path", []⟩, []⟩
          (-(create_locals env F active sc tool roughing).diam)
        else some ⟨{ g with toolnr := tool }, ⟨"STL path", []⟩, []⟩) = some mid ∧
      (if !roughing
        then raster_X env (create_locals env F active sc tool roughing) F mid
          (-(create_locals env F active sc tool roughing).diam)
        else some mid) = some out := by
  unfold create_toolpath_raster at h
  simp only at h
  cases hr : (if roughing || sc.finishing_pass
        then raster_Y env (create_locals env F active sc tool roughing) F
          ⟨{ g with toolnr := tool }, ⟨"STL path", []⟩, []⟩
          (-(create_locals env F active sc tool roughing).diam)
        else some ⟨{ g with toolnr := tool }, ⟨"STL path", []⟩, []⟩) with
  | none => rw [hr] at h; exact absurd h (by simp)
  | some mid =>
    rw [hr] at h
    exact ⟨mid, rfl, h⟩

/-! ## Lemmas on the direction of the segments -/

/-- Every segment the first raster block adds joins two points of one raster line: same
`Y`, and `X` values one stepover apart.  `Q` describes the segments that were there. -/
theorem raster_Y_segments (env : Env) (v : locals) (Q : segment → Prop)
    (fuel : Nat) (st : raster_state) (Y : ℚ) (out : raster_state)
    (h0 : ∀ k l, ∀ seg ∈ segs_at st.input k l,
      Q seg ∨ (seg.Y1 = seg.Y2 ∧ seg.X2 - seg.X1 = v.stepover))
    (h : raster_Y env v fuel st Y = some out) :
    ∀ k l, ∀ seg ∈ segs_at out.input k l,
      Q seg ∨ (seg.Y1 = seg.Y2 ∧ seg.X2 - seg.X1 = v.stepover) := by
  have key := raster_Y_inv_idx env v
    (fun _ st => ∀ k l, ∀ seg ∈ segs_at st.input k l,
      Q seg ∨ (seg.Y1 = seg.Y2 ∧ seg.X2 - seg.X1 = v.stepover))
    (fun Y X st => (∀ k l, ∀ seg ∈ segs_at st.input k l,
      Q seg ∨ (seg.Y1 = seg.Y2 ∧ seg.X2 - seg.X1 = v.stepover)) ∧
      (st.g.first = true ∨ (st.g.last_Y = Y ∧ st.g.last_X = X - v.stepover)))
    (fun Y st hI _ => ⟨hI, Or.inl rfl⟩) ?_ (fun Y X st hJ => hJ.1) fuel st Y out h0 h
  · obtain ⟨_, k0⟩ := key
    exact k0
  · intro Y st X st1 hJ _ hs
    obtain ⟨hl, _⟩ := sample_point_some env v st st1 X Y hs
    have hg := line_to_globals _ _ _ _ _ _ _ _ _ hl
    have hem := line_to_emits _ _ _ _ _ _ _ _ _ hl
    refine ⟨?_, Or.inr ⟨by rw [hg], by rw [hg]; ring⟩⟩
    intro k l seg hmem
    obtain ⟨new, hnew, hall⟩ := hem k l
    rw [hnew, List.mem_append] at hmem
    rcases hmem with hold | hnw
    · exact hJ.1 k l seg hold
    · obtain ⟨hf, hx1, hy1, hx2, hy2⟩ := hall seg hnw
      rcases hJ.2 with hfirst | ⟨hly, hlx⟩
      · rw [hf] at hfirst; exact absurd hfirst (by simp)
      · right
        rw [hx1, hy1, hx2, hy2, hly, hlx]
        exact ⟨rfl, by ring⟩

/-- Every segment the second raster block adds joins two points of one raster line: same
`X`, and `Y` values one stepover apart.  `Q` describes the segments that were there. -/
theorem raster_X_segments (env : Env) (v : locals) (Q : segment → Prop)
    (fuel : Nat) (st : raster_state) (X : ℚ) (out : raster_state)
    (h0 : ∀ k l, ∀ seg ∈ segs_at st.input k l,
      Q seg ∨ (seg.X1 = seg.X2 ∧ seg.Y2 - seg.Y1 = v.stepover))
    (h : raster_X env v fuel st X = some out) :
    ∀ k l, ∀ seg ∈ segs_at out.input k l,
      Q seg ∨ (seg.X1 = seg.X2 ∧ seg.Y2 - seg.Y1 = v.stepover) := by
  have key := raster_X_inv_idx env v
    (fun _ st => ∀ k l, ∀ seg ∈ segs_at st.input k l,
      Q seg ∨ (seg.X1 = seg.X2 ∧ seg.Y2 - seg.Y1 = v.stepover))
    (fun X Y st => (∀ k l, ∀ seg ∈ segs_at st.input k l,
      Q seg ∨ (seg.X1 = seg.X2 ∧ seg.Y2 - seg.Y1 = v.stepover)) ∧
      (st.g.first = true ∨ (st.g.last_X = X ∧ st.g.last_Y = Y - v.stepover)))
    (fun X st hI _ => ⟨hI, Or.inl rfl⟩) ?_ (fun X Y st hJ => hJ.1) fuel st X out h0 h
  · obtain ⟨_, k0⟩ := key
    exact k0
  · intro X st Y st1 hJ _ hs
    obtain ⟨hl, _⟩ := sample_point_some env v st st1 X Y hs
    have hg := line_to_globals _ _ _ _ _ _ _ _ _ hl
    have hem := line_to_emits _ _ _ _ _ _ _ _ _ hl
    refine ⟨?_, Or.inr ⟨by rw [hg], by rw [hg]; ring⟩⟩
    intro k l seg hmem
    obtain ⟨new, hnew, hall⟩ := hem k l
    rw [hnew, List.mem_append] at hmem
    rcases hmem with hold | hnw
    · exact hJ.1 k l seg hold
    · obtain ⟨hf, hx1, hy1, hx2, hy2⟩ := hall seg hnw
      rcases hJ.2 with hfirst | ⟨hlx, hly⟩
      · rw [hf] at hfirst; exact absurd hfirst (by simp)
      · right
        rw [hx1, hy1, hx2, hy2, hly, hlx]
        exact ⟨rfl, by ring⟩

theorem segs_at_empty (nm : String) (k l : Nat) : segs_at ⟨nm, []⟩ k l = [] := by
  simp [segs_at]

/-! ## Lemmas on the hidden state -/

theorem opt_rel_in_line_refl (o : Option raster_state) : opt_rel same_in_line o o := by
  cases o with
  | none => exact trivial
  | some a => exact ⟨⟨rfl, rfl, rfl, rfl⟩, Or.inl rfl⟩

theorem sample_point_same (env : Env) (v : locals) (st st2 : raster_state) (X Y : ℚ)
    (h : same_in_line st st2) :
    sample_point env v st X Y = sample_point env v st2 X Y := by
  obtain ⟨⟨hi, hsam, htn, hT⟩, hg⟩ := h
  rcases st with ⟨g, input, samples⟩
  rcases st2 with ⟨g2, input2, samples2⟩
  simp only at hi hsam htn hT hg
  subst hi hsam
  rcases hg with hg | ⟨hf, hf2⟩
  · subst hg; rfl
  · simp only [sample_point, line_to_first _ _ _ _ _ _ _ hf, line_to_first _ _ _ _ _ _ _ hf2,
      htn, hT]

theorem sweep_X_same (env : Env) (v : locals) (Y : ℚ) :
    ∀ (fuel : Nat) (st st2 : raster_state) (X : ℚ), same_in_line st st2 →
      opt_rel same_in_line (sweep_X env v fuel st X Y) (sweep_X env v fuel st2 X Y) := by
  intro fuel st st2 X h
  by_cases hlt : X < v.maxX
  · cases fuel with
    | zero =>
      unfold sweep_X
      rw [if_pos hlt, if_pos hlt]
      exact trivial
    | succ fuel =>
      have e : sweep_X env v (fuel + 1) st X Y = sweep_X env v (fuel + 1) st2 X Y := by
        unfold sweep_X
        rw [if_pos hlt, if_pos hlt]
        simp only [sample_point_same env v st st2 X Y h]
      rw [e]
      exact opt_rel_in_line_refl _
  · unfold sweep_X
    rw [if_neg hlt, if_neg hlt]
    exact h

theorem sweep_Y_same (env : Env) (v : locals) (X : ℚ) :
    ∀ (fuel : Nat) (st st2 : raster_state) (Y : ℚ), same_in_line st st2 →
      opt_rel same_in_line (sweep_Y env v fuel st X Y) (sweep_Y env v fuel st2 X Y) := by
  intro fuel st st2 Y h
  by_cases hlt : Y < v.maxY
  · cases fuel with
    | zero =>
      unfold sweep_Y
      rw [if_pos hlt, if_pos hlt]
      exact trivial
    | succ fuel =>
      have e : sweep_Y env v (fuel + 1) st X Y = sweep_Y env v (fuel + 1) st2 X Y := by
        unfold sweep_Y
        rw [if_pos hlt, if_pos hlt]
        simp only [sample_point_same env v st st2 X Y h]
      rw [e]
      exact opt_rel_in_line_refl _
  · unfold sweep_Y
    rw [if_neg hlt, if_neg hlt]
    exact h

theorem same_in_line_first (st st2 : raster_state) (h : same_but_point st st2) :
    same_in_line { st with g := { st.g with first := true } }
      { st2 with g := { st2.g with first := true } } :=
  ⟨⟨h.1, h.2.1, h.2.2.1, h.2.2.2⟩, Or.inr ⟨rfl, rfl⟩⟩

theorem raster_Y_same (env : Env) (v : locals) :
    ∀ (fuel : Nat) (st st2 : raster_state) (Y : ℚ), same_but_point st st2 →
      opt_rel same_but_point (raster_Y env v fuel st Y) (raster_Y env v fuel st2 Y) := by
  intro fuel
  induction fuel with
  | zero =>
    intro st st2 Y h
    unfold raster_Y
    by_cases hlt : Y < v.maxY
    · rw [if_pos hlt, if_pos hlt]; exact trivial
    · rw [if_neg hlt, if_neg hlt]; exact h
  | succ fuel ih =>
    intro st st2 Y h
    unfold raster_Y
    by_cases hlt : Y < v.maxY
    · rw [if_pos hlt, if_pos hlt]
      simp only
      have hsw := sweep_X_same env v Y v.F _ _ (-v.diam) (same_in_line_first st st2 h)
      cases h1 : sweep_X env v v.F { st with g := { st.g with first := true } } (-v.diam) Y with
      | none =>
        cases h2 : sweep_X env v v.F { st2 with g := { st2.g with first := true } }
            (-v.diam) Y with
        | none => exact trivial
        | some b => rw [h1, h2] at hsw; exact absurd hsw id
      | some a =>
        cases h2 : sweep_X env v v.F { st2 with g := { st2.g with first := true } }
            (-v.diam) Y with
        | none => rw [h1, h2] at hsw; exact absurd hsw id
        | some b =>
          rw [h1, h2] at hsw
          exact ih a b _ hsw.1
    · rw [if_neg hlt, if_neg hlt]; exact h

theorem raster_X_same (env : Env) (v : locals) :
    ∀ (fuel : Nat) (st st2 : raster_state) (X : ℚ), same_but_point st st2 →
      opt_rel same_but_point (raster_X env v fuel st X) (raster_X env v fuel st2 X) := by
  intro fuel
  induction fuel with
  | zero =>
    intro st st2 X h
    unfold raster_X
    by_cases hlt : X < v.maxX
    · rw [if_pos hlt, if_pos hlt]; exact trivial
    · rw [if_neg hlt, if_neg hlt]; exact h
  | succ fuel ih =>
    intro st st2 X h
    unfold raster_X
    by_cases hlt : X < v.maxX
    · rw [if_pos hlt, if_pos hlt]
      simp only
      have hsw := sweep_Y_same env v X v.F _ _ (-v.diam) (same_in_line_first st st2 h)
      cases h1 : sweep_Y env v v.F { st with g := { st.g with first := true } } X (-v.diam) with
      | none =>
        cases h2 : sweep_Y env v v.F { st2 with g := { st2.g with first := true } } X
            (-v.diam) with
        | none => exact trivial
        | some b => rw [h1, h2] at hsw; exact absurd hsw id
      | some a =>
        cases h2 : sweep_Y env v v.F { st2 with g := { st2.g with first := true } } X
            (-v.diam) with
        | none => rw [h1, h2] at hsw; exact absurd hsw id
        | some b =>
          rw [h1, h2] at hsw
          exact ih a b _ hsw.1
    · rw [if_neg hlt, if_neg hlt]; exact h

/-- The raster of `create_toolpath` ends alike from any two file-scope states with the
same slice thickness. -/
theorem create_toolpath_raster_same (env : Env) (F : Nat) (active : Int) (g g2 : Globals)
    (sc : scene) (tool : Int) (roughing : Bool) (hT : g.tooldepth = g2.tooldepth) :
    opt_rel same_but_point (create_toolpath_raster env F active g sc tool roughing)
      (create_toolpath_raster env F active g2 sc tool roughing) := by
  have h0 : same_but_point (⟨{ g with toolnr := tool }, ⟨"STL path", []⟩, []⟩ : raster_state)
      ⟨{ g2 with toolnr := tool }, ⟨"STL path", []⟩, []⟩ := ⟨rfl, rfl, rfl, hT⟩
  unfold create_toolpath_raster
  simp only
  generalize create_locals env F active sc tool roughing = v
  have hb1 : opt_rel same_but_point
      (if roughing || sc.finishing_pass
        then raster_Y env v F ⟨{ g with toolnr := tool }, ⟨"STL path", []⟩, []⟩ (-v.diam)
        else some ⟨{ g with toolnr := tool }, ⟨"STL path", []⟩, []⟩)
      (if roughing || sc.finishing_pass
        then raster_Y env v F ⟨{ g2 with toolnr := tool }, ⟨"STL path", []⟩, []⟩ (-v.diam)
        else some ⟨{ g2 with toolnr := tool }, ⟨"STL path", []⟩, []⟩) := by
    split_ifs
    · exact raster_Y_same env v F _ _ _ h0
    · exact h0
  revert hb1
  generalize (if roughing || sc.finishing_pass
      then raster_Y env v F ⟨{ g with toolnr := tool }, ⟨"STL path", []⟩, []⟩ (-v.diam)
      else some ⟨{ g with toolnr := tool }, ⟨"STL path", []⟩, []⟩) = r1
  generalize (if roughing || sc.finishing_pass
      then raster_Y env v F ⟨{ g2 with toolnr := tool }, ⟨"STL path", []⟩, []⟩ (-v.diam)
      else some ⟨{ g2 with toolnr := tool }, ⟨"STL path", []⟩, []⟩) = r2
  intro hb1
  cases r1 with
  | none =>
    cases r2 with
    | none => exact trivial
    | some b => exact absurd hb1 id
  | some a =>
    cases r2 with
    | none => exact absurd hb1 id
    | some b =>
      simp only
      split_ifs
      · exact raster_X_same env v F a b _ hb1
      · exact hb1

/-- The raster leaves the slice thickness as it was. -/
theorem create_toolpath_raster_tooldepth (env : Env) (F : Nat) (active : Int) (g : Globals)
    (sc : scene) (tool : Int) (roughing : Bool) (out : raster_state)
    (h : create_toolpath_raster env F active g sc tool roughing = some out) :
    out.g.tooldepth = g.tooldepth := by
  refine create_toolpath_raster_inv env F active g sc tool roughing
    (fun st => st.g.tooldepth = g.tooldepth) (fun st => st.g.tooldepth = g.tooldepth)
    (fun st hI => hI) ?_ (fun st hJ => hJ) rfl out h
  intro st X Y st1 hJ hs
  obtain ⟨hl, _⟩ := sample_point_some env _ st st1 X Y hs
  rw [line_to_globals _ _ _ _ _ _ _ _ _ hl]
  exact hJ

/-- The raster does not read the list of shapes of the scene. -/
theorem create_toolpath_raster_shapes (env : Env) (F : Nat) (active : Int) (g : Globals)
    (sc : scene) (tool : Int) (roughing : Bool) (shapes : List inputshape) :
    create_toolpath_raster env F active g { sc with shapes := shapes } tool roughing
      = create_toolpath_raster env F active g sc tool roughing := rfl

/-! ## Lemmas on the nesting of the bands -/

theorem line_to_bands_nested (diam : ℚ) (fuel : Nat) (g : Globals) (input : inputshape)
    (X2 Y2 Z2 : ℚ) (g1 : Globals) (out : inputshape) (hT : 0 < g.tooldepth)
    (hn : bands_nested g.tooldepth input)
    (h : line_to diam fuel g input X2 Y2 Z2 = some (g1, out)) :
    bands_nested g.tooldepth out := by
  cases hf : g.first with
  | true =>
    rw [line_to_first diam fuel g input X2 Y2 Z2 hf] at h
    simp only [Option.some.injEq, Prod.mk.injEq] at h
    rw [← h.2]; exact hn
  | false =>
    obtain ⟨n, htc⟩ := trip_count_exists g.tooldepth hT g.last_Z Z2
    have hs := line_to_segs_of_some diam fuel g input X2 Y2 Z2 g1 out hf n htc h
    obtain ⟨ha, hb, hd⟩ := hn
    refine ⟨?_, ?_, ?_⟩
    · intro k hk
      rw [hs (k + 1) 0, hs k 0, List.length_append, List.length_append]
      have := ha k hk
      by_cases hkn : k + 1 ≤ n
      · rw [if_pos ⟨rfl, by omega, hkn⟩, if_pos ⟨rfl, hk, by omega⟩]
        simp only [List.length_singleton]
        omega
      · rw [if_neg (by tauto)]
        simp only [List.length_nil]
        omega
    · intro k l hl
      rw [hs k l, hb k l hl, if_neg (by tauto)]
      rfl
    · intro k hk x hx
      rw [hs (k + 1) 0, List.mem_append] at hx
      rcases hx with hx | hx
      · obtain ⟨y, hy, hxy⟩ := hd k hk x hx
        exact ⟨y, by rw [hs k 0]; exact List.mem_append_left _ hy, hxy⟩
      · split_ifs at hx with hc
        · rw [List.mem_singleton] at hx
          refine ⟨emitted g.tooldepth g.last_X g.last_Y g.last_Z X2 Y2 Z2 (k - 1), ?_, ?_⟩
          · rw [hs k 0, if_pos ⟨rfl, hk, by omega⟩]
            exact List.mem_append_right _ (List.mem_singleton.mpr rfl)
          · rw [hx]
            obtain ⟨j, rfl⟩ : ∃ j, k = j + 1 := ⟨k - 1, by omega⟩
            simp only [emitted, Nat.add_sub_cancel, Nat.cast_add, Nat.cast_one,
              segment.mk.injEq, true_and]
            constructor <;> ring
        · exact absurd hx (List.not_mem_nil x)

theorem path_calls_bands_nested (diam : ℚ) (fuel : Nat) (calls : List (Bool × ℚ × ℚ × ℚ)) :
    ∀ (g : Globals) (input : inputshape) (g1 : Globals) (out : inputshape),
      0 < g.tooldepth → bands_nested g.tooldepth input →
      path_calls diam fuel g input calls = some (g1, out) →
      bands_nested g.tooldepth out := by
  induction calls with
  | nil =>
    intro g input g1 out _ hn h
    simp only [path_calls, Option.some.injEq, Prod.mk.injEq] at h
    rw [← h.2]; exact hn
  | cons c rest ih =>
    intro g input g1 out hT hn h
    obtain ⟨b, X, Y, Z⟩ := c
    simp only [path_calls] at h
    cases hl : line_to diam fuel (if b then { g with first := true } else g) input X Y Z with
    | none => rw [hl] at h; exact absurd h (by simp)
    | some r =>
      obtain ⟨g2, s2⟩ := r
      rw [hl] at h
      have hTb : (if b then { g with first := true } else g).tooldepth = g.tooldepth := by
        cases b <;> rfl
      have hn2 := line_to_bands_nested diam fuel _ input X Y Z g2 s2 (by rw [hTb]; exact hT)
        (by rw [hTb]; exact hn) hl
      have hg2 := line_to_globals _ _ _ _ _ _ _ _ _ hl
      have hT2 : g2.tooldepth = g.tooldepth := by rw [hg2]; exact hTb
      rw [hTb] at hn2
      have := ih g2 s2 g1 out (by rw [hT2]; exact hT) (by rw [hT2]; exact hn2) h
      rw [hT2] at this
      exact this

theorem bands_nested_empty (T : ℚ) (nm : String) : bands_nested T ⟨nm, []⟩ :=
  ⟨fun k _ => by simp [segs_at], fun k l _ => by simp [segs_at],
    fun k _ x hx => by simp [segs_at] at hx⟩

/-! ## Claims -/

/-- C1: for every previous point `(x1,y1,z1)` held in the state, new point `(x2,y2,z2)` and
slice thickness `T > 0`, a non-first call of `line_to` returns (with fuel `n` or more), the
returned shape has exactly one more segment, from `(x1,y1,z1+(k-1)T)` to
`(x2,y2,z2+(k-1)T)`, at the end of level 0 of band `k` for each `k = 1..n`, and every other
segment list is as before; `n` is the least natural number with `z1+nT ≥ -0.000001` and
`z2+nT ≥ -0.00001`. -/
theorem C1_line_to_appends (diam : ℚ) (g : Globals) (input : inputshape) (X2 Y2 Z2 : ℚ)
    (hT : 0 < g.tooldepth) (hfirst : g.first = false) :
    ∃ n : Nat,
      ((-(1 / 1000000) ≤ g.last_Z + n * g.tooldepth ∧ -(1 / 100000) ≤ Z2 + n * g.tooldepth) ∧
        ∀ m : Nat, -(1 / 1000000) ≤ g.last_Z + m * g.tooldepth ∧
          -(1 / 100000) ≤ Z2 + m * g.tooldepth → n ≤ m) ∧
      ∀ fuel, n ≤ fuel →
        ∃ g1 out, line_to diam fuel g input X2 Y2 Z2 = some (g1, out) ∧
          ∀ k l, segs_at out k l = segs_at input k l ++
            (if l = 0 ∧ 1 ≤ k ∧ k ≤ n
              then [⟨g.last_X, g.last_Y, g.last_Z + ((k - 1 : Nat) : ℚ) * g.tooldepth,
                      X2, Y2, Z2 + ((k - 1 : Nat) : ℚ) * g.tooldepth⟩]
              else []) := by
  obtain ⟨n, hn⟩ := trip_count_exists g.tooldepth hT g.last_Z Z2
  refine ⟨n, trip_count_least _ _ _ n hn, ?_⟩
  intro fuel hfuel
  obtain ⟨out, hout, hsegs⟩ := line_to_spec diam g input X2 Y2 Z2 hfirst n hn fuel hfuel
  exact ⟨_, out, hout, hsegs⟩

/-- C1 at a concrete call: previous point `(0,0,-5)`, new point `(1,0,-3)`, `T = 2`. -/
theorem C1_line_to_appends_witness :
    ∃ n : Nat,
      ((-(1 / 1000000) ≤ (-5 : ℚ) + n * 2 ∧ -(1 / 100000) ≤ (-3 : ℚ) + n * 2) ∧
        ∀ m : Nat, -(1 / 1000000) ≤ (-5 : ℚ) + m * 2 ∧
          -(1 / 100000) ≤ (-3 : ℚ) + m * 2 → n ≤ m) ∧
      ∀ fuel, n ≤ fuel →
        ∃ g1 out, line_to 3 fuel ⟨1, 2, 0, 0, -5, false⟩ ⟨"STL path", []⟩ 1 0 (-3)
            = some (g1, out) ∧
          ∀ k l, segs_at out k l = segs_at ⟨"STL path", []⟩ k l ++
            (if l = 0 ∧ 1 ≤ k ∧ k ≤ n
              then [⟨0, 0, -5 + ((k - 1 : Nat) : ℚ) * 2, 1, 0, -3 + ((k - 1 : Nat) : ℚ) * 2⟩]
              else []) :=
  C1_line_to_appends 3 ⟨1, 2, 0, 0, -5, false⟩ ⟨"STL path", []⟩ 1 0 (-3)
    (by norm_num) rfl

/-- C2 as stated fails: read over the reals, `get_height_tool` is not the maximum over the
nine points whose diagonal offset is `R / √2`.  For the height field that is 1 at
`(1/1.4, 1/1.4)` and 0 elsewhere, the sampler at `(0,0)` with `R = 1` returns 1, while the
field is 0 at all nine points of the `√2` stencil. -/
theorem C2_sqrt2_stencil_fails :
    ¬ ∀ (h : ℝ → ℝ → ℝ) (x y R : ℝ), 0 ≤ R →
      (∀ p ∈ stencil9 x y R (Real.sqrt 2), h p.1 p.2 ≤ get_height_tool h x y R) ∧
      ∃ p ∈ stencil9 x y R (Real.sqrt 2), get_height_tool h x y R = h p.1 p.2 := by
  classical
  intro hall
  obtain ⟨_, p, hp, hval⟩ :=
    hall (fun a b => if a = 1 / 1.4 ∧ b = 1 / 1.4 then 1 else 0) 0 0 1 (by norm_num)
  have hpos : 0 < Real.sqrt 2 := by positivity
  have hcode : get_height_tool (fun a b : ℝ => if a = 1 / 1.4 ∧ b = 1 / 1.4 then 1 else 0) 0 0 1
      = 1 := by
    norm_num [get_height_tool]
  rw [hcode] at hval
  have hd : (Real.sqrt 2)⁻¹ ≠ 5 / 7 := by
    intro e
    apply sqrt_two_ne_1_4
    rw [← inv_inv (Real.sqrt 2), e]
    norm_num
  have hd2 : -(Real.sqrt 2)⁻¹ ≠ 5 / 7 := by
    have : 0 < (Real.sqrt 2)⁻¹ := inv_pos.mpr hpos
    intro e
    linarith
  simp only [stencil9, List.mem_cons, List.mem_singleton, List.not_mem_nil, or_false] at hp
  rcases hp with rfl | rfl | rfl | rfl | rfl | rfl | rfl | rfl | rfl <;>
    norm_num [hd, hd2] at hval

/-- C2 as amended: for every height field `h`, point `(x,y)` and radius `R`,
`get_height_tool` returns the maximum of `h` over the nine points `(x,y)`, `(x-R,y)`,
`(x+R,y)`, `(x,y+R)`, `(x,y-R)` and the four diagonal points
`(x ± R/1.4, y ± R/1.4)`: it bounds `h` at each of them and is attained at one. -/
theorem C2_get_height_tool_stencil (h : ℚ → ℚ → ℚ) (x y R : ℚ) :
    (∀ p ∈ stencil9 x y R 1.4, h p.1 p.2 ≤ get_height_tool h x y R) ∧
    ∃ p ∈ stencil9 x y R 1.4, get_height_tool h x y R = h p.1 p.2 :=
  get_height_tool_max h x y R

/-- C3 fails on the code: `create_toolpath` hands the tool diameter `tool_diam(tool)`,
not half of it, to `get_height_tool` as `R`.  With tool diameter 2 and the spike field,
every recorded sampler call has `R = 2`; at the sample `(0,-2)` the handed `Z` is `-9`
because the stencil of radius 2 reaches the spike at the origin, while the sampler called
with the radius 1 returns 0 there. -/
theorem C3_sampler_gets_diameter :
    (create_toolpath_raster spike_env 4 7 ⟨0, 5000, 0, 0, 0, false⟩ spike_scene 7 true).map
        raster_state.samples
      = some [⟨-2, -2, 2, -10⟩, ⟨0, -2, 2, -9⟩, ⟨-2, 0, 2, -9⟩, ⟨0, 0, 2, -9⟩]
    ∧ spike_env.tool_diam 7 / 2 = 1
    ∧ get_height_tool spike_env.get_height 0 (-2) (spike_env.tool_diam 7 / 2) = 0
    ∧ get_height_tool spike_env.get_height 0 (-2) (spike_env.tool_diam 7) = 1 := by
  refine ⟨by decide!, by decide!, by decide!, by decide!⟩

/-- C4: for every scene with `n` active tools, `process_stl_file` is the succession of
exactly the `n` selector invocations of `schedule`, whatever each invocation does: the
`j`-th one is for insertion index `n-1-j`, with roughing set exactly when the index is not
`n-1`, and with slice thickness the tool's rated maximum depth of cut when the index is 0
and 5000 otherwise. -/
theorem C4_process_stl_file_schedule (env : Env) (F : Nat) (g : Globals) (sc : scene) :
    process_stl_file env F g sc = (schedule env sc.tools).foldlM (invoke env F) (g, sc)
    ∧ (schedule env sc.tools).length = sc.tools.length
    ∧ ∀ j c, (schedule env sc.tools)[j]? = some c →
        c.index = sc.tools.length - 1 - j
        ∧ c.tool = sc.tools.getD c.index 0
        ∧ (c.roughing = true ↔ c.index ≠ sc.tools.length - 1)
        ∧ (c.index = 0 → c.tooldepth = env.get_tool_maxdepth c.tool)
        ∧ (c.index ≠ 0 → c.tooldepth = 5000) := by
  refine ⟨?_, by simp [schedule], ?_⟩
  · exact process_stl_loop_eq env F sc.tools sc.tools.length g sc rfl le_rfl
  · intro j c hjc
    have hj : j < (schedule env sc.tools).length := by
      by_contra hc
      rw [List.getElem?_eq_none (by omega)] at hjc
      exact absurd hjc (by simp)
    rw [List.getElem?_eq_getElem hj] at hjc
    simp only [Option.some.injEq] at hjc
    subst hjc
    simp only [schedule, List.getElem_map, List.getElem_reverse, List.getElem_range,
      List.length_range, decide_eq_true_eq]
    refine ⟨trivial, trivial, trivial, ?_, ?_⟩
    · intro h; rw [if_pos h]
    · intro h; rw [if_neg h]

/-- C4 for the two tools 7 and 8 of `flat_scene`: tool 8 (index 1) is run first, as the
finishing tool with slice thickness 5000, then tool 7 (index 0) as a roughing tool with its
rated depth of cut 2; the run returns with two shapes in the scene. -/
theorem C4_process_stl_file_schedule_witness :
    schedule flat_env flat_scene.tools = [⟨1, 8, false, 5000⟩, ⟨0, 7, true, 2⟩] ∧
    (process_stl_file flat_env 8 ⟨0, 0, 0, 0, 0, false⟩ flat_scene).map
        (fun r => r.2.shapes.length) = some 2 ∧
    process_stl_file flat_env 8 ⟨0, 0, 0, 0, 0, false⟩ flat_scene
      = (schedule flat_env flat_scene.tools).foldlM (invoke flat_env 8)
          (⟨0, 0, 0, 0, 0, false⟩, flat_scene) :=
  ⟨by decide!, by decide!,
    (C4_process_stl_file_schedule flat_env 8 ⟨0, 0, 0, 0, 0, false⟩ flat_scene).1⟩

/-- C5 as stated fails at `T = 1`, previous point `(0,0,0)`, new point `(1,0,-3)`: the band
list gets four entries (band 0 and bands 1..3), and the segment of band 2 has `Z` values
`1` and `-2`, those of band 1 (`0` and `-3`) plus `T`, not minus `T`. -/
theorem C5_Z_increase_at_T1 :
    (line_to 3 3 ⟨1, 1, 0, 0, 0, false⟩ ⟨"STL path", []⟩ 1 0 (-3)).map
        (fun r => (r.2.tooldepths.length, segs_at r.2 1 0, segs_at r.2 2 0, segs_at r.2 3 0))
      = some (4, [⟨0, 0, 0, 1, 0, -3⟩], [⟨0, 0, 1, 1, 0, -2⟩], [⟨0, 0, 2, 1, 0, -1⟩]) := by
  decide!

/-- C5 as amended: for every slice thickness `T > 0.00001`, a non-first call of `line_to`
with previous `Z1 = 0` and new `Z2 = -3T` on a shape with no bands returns (with fuel 3 or
more) a shape with the empty band 0 and bands 1, 2, 3, each holding exactly one level with
exactly one 2-point segment, and the segments' `Z` values increase by `T` from each band
to the next: `(0, -3T)`, `(T, -3T+T)`, `(T+T, -3T+T+T)`. -/
theorem C5_three_bands (diam T X1 Y1 X2 Y2 : ℚ) (tn : Int) (nm : String)
    (hT : 1 / 100000 < T) (fuel : Nat) (hfuel : 3 ≤ fuel) :
    line_to diam fuel ⟨tn, T, X1, Y1, 0, false⟩ ⟨nm, []⟩ X2 Y2 (-3 * T)
      = some (⟨tn, T, X2, Y2, -3 * T, false⟩,
          ⟨nm, [⟨0, tn, diam, []⟩,
                ⟨0, tn, diam, [⟨0, diam, diam, 0, tn, 0, "Manual toolpath", true,
                  [⟨X1, Y1, 0, X2, Y2, -3 * T⟩]⟩]⟩,
                ⟨T, tn, diam, [⟨0, diam, diam, T, tn, 0, "Manual toolpath", true,
                  [⟨X1, Y1, T, X2, Y2, -3 * T + T⟩]⟩]⟩,
                ⟨T + T, tn, diam, [⟨0, diam, diam, T + T, tn, 0, "Manual toolpath", true,
                  [⟨X1, Y1, T + T, X2, Y2, -3 * T + T + T⟩]⟩]⟩]⟩) := by
  obtain ⟨f, rfl⟩ : ∃ f, fuel = f + 1 + 1 + 1 := ⟨fuel - 3, by omega⟩
  have h1 : in_material 0 (-3 * T) := Or.inr (by linarith)
  have h2 : in_material (0 + T) (-3 * T + T) := Or.inr (by linarith)
  have h3 : in_material (0 + T + T) (-3 * T + T + T) := Or.inr (by linarith)
  have h4 : ¬ in_material (0 + T + T + T) (-3 * T + T + T + T) := by
    unfold in_material; push_neg; constructor <;> linarith
  simp only [line_to, Bool.false_eq_true, if_false]
  rw [line_to_loop_step _ _ _ _ _ _ _ _ _ _ _ h1, line_to_loop_step _ _ _ _ _ _ _ _ _ _ _ h2,
    line_to_loop_step _ _ _ _ _ _ _ _ _ _ _ h3, line_to_loop_done _ _ _ _ _ _ _ _ _ _ _ h4]
  simp [band_step, push_tooldepths_eq, tooldepth.add_segment, toollevel.add_poly_vcarve,
    new_toollevel, new_tooldepth, List.replicate]

/-- C5 as amended, at `T = 2` with previous point `(0,0,0)` and new point `(1,0,-6)`. -/
theorem C5_three_bands_witness :
    (1 : ℚ) / 100000 < 2 ∧
    line_to 3 3 ⟨1, 2, 0, 0, 0, false⟩ ⟨"STL path", []⟩ 1 0 (-3 * 2)
      = some (⟨1, 2, 1, 0, -3 * 2, false⟩,
          ⟨"STL path", [⟨0, 1, 3, []⟩,
                ⟨0, 1, 3, [⟨0, 3, 3, 0, 1, 0, "Manual toolpath", true,
                  [⟨0, 0, 0, 1, 0, -3 * 2⟩]⟩]⟩,
                ⟨2, 1, 3, [⟨0, 3, 3, 2, 1, 0, "Manual toolpath", true,
                  [⟨0, 0, 2, 1, 0, -3 * 2 + 2⟩]⟩]⟩,
                ⟨2 + 2, 1, 3, [⟨0, 3, 3, 2 + 2, 1, 0, "Manual toolpath", true,
                  [⟨0, 0, 2 + 2, 1, 0, -3 * 2 + 2 + 2⟩]⟩]⟩]⟩) :=
  ⟨by norm_num, C5_three_bands 3 2 0 0 1 0 1 "STL path" (by norm_num) 3 (by decide)⟩

/-- C6 as stated fails at `T = 0.0000001`, `m = 1`: both `Z` values are `-T`, which is
below zero but not below either threshold, so the loop body never runs and the shape keeps
having no band, where the claim has one band with geometry. -/
theorem C6_no_band_for_tiny_T :
    (0 : ℚ) < 1 / 10000000 ∧ -(1 * (1 / 10000000)) < (0 : ℚ) ∧
    (line_to 3 5 ⟨1, 1 / 10000000, 0, 0, -(1 * (1 / 10000000)), false⟩ ⟨"STL path", []⟩
        1 0 (-(1 * (1 / 10000000)))).map (fun r => r.2)
      = some ⟨"STL path", []⟩ := by
  refine ⟨by norm_num, by norm_num, by decide!⟩

/-- C6 as amended: for a point pair whose two `Z` values both equal `-mT` and slice
thickness `T > 0.000001`, `line_to` (with fuel `m` or more) adds one segment to level
0 of each of the bands `1..m` and to no other band; with slice thickness 5000 and
`-5000 ≤ Z < -0.00001` the loop guard holds at `Z` and fails at `Z + 5000`, so the loop runs
once and one segment is added, to level 0 of band 1 only. -/
theorem C6_band_count (diam T Z X1 Y1 X2 Y2 : ℚ) (tn : Int) (m : Nat) (input : inputshape)
    (hT : 1 / 1000000 < T) (hZ1 : -5000 ≤ Z) (hZ2 : Z < -(1 / 100000)) :
    (∀ fuel, m ≤ fuel →
      ∃ out, line_to diam fuel ⟨tn, T, X1, Y1, -(m * T), false⟩ input X2 Y2 (-(m * T))
          = some (⟨tn, T, X2, Y2, -(m * T), false⟩, out) ∧
        ∀ k l, segs_at out k l = segs_at input k l ++
          (if l = 0 ∧ 1 ≤ k ∧ k ≤ m
            then [⟨X1, Y1, -(m * T) + ((k - 1 : Nat) : ℚ) * T,
                    X2, Y2, -(m * T) + ((k - 1 : Nat) : ℚ) * T⟩]
            else [])) ∧
    (in_material Z Z ∧ ¬ in_material (Z + 5000) (Z + 5000) ∧
      ∀ fuel, 1 ≤ fuel →
        ∃ out, line_to diam fuel ⟨tn, 5000, X1, Y1, Z, false⟩ input X2 Y2 Z
            = some (⟨tn, 5000, X2, Y2, Z, false⟩, out) ∧
          ∀ k l, segs_at out k l = segs_at input k l ++
            (if l = 0 ∧ k = 1 then [⟨X1, Y1, Z, X2, Y2, Z⟩] else [])) := by
  have hin : in_material Z Z := Or.inr hZ2
  have hout : ¬ in_material (Z + 5000) (Z + 5000) := by
    unfold in_material; push_neg; constructor <;> linarith
  refine ⟨?_, hin, hout, ?_⟩
  · have htc : trip_count T (-(m * T)) (-(m * T)) m := by
      constructor
      · intro j hj
        left
        have hjm : (j : ℚ) + 1 ≤ m := by exact_mod_cast hj
        nlinarith
      · unfold in_material; push_neg; constructor <;> linarith
    intro fuel hfuel
    obtain ⟨out, ho, hs⟩ := line_to_spec diam ⟨tn, T, X1, Y1, -(m * T), false⟩ input X2 Y2
      (-(m * T)) rfl m htc fuel hfuel
    exact ⟨out, ho, hs⟩
  · have htc : trip_count 5000 Z Z 1 := by
      constructor
      · intro j hj
        obtain rfl : j = 0 := by omega
        simpa using hin
      · simpa using hout
    intro fuel hfuel
    obtain ⟨out, ho, hs⟩ := line_to_spec diam ⟨tn, 5000, X1, Y1, Z, false⟩ input X2 Y2 Z
      rfl 1 htc fuel hfuel
    refine ⟨out, ho, ?_⟩
    intro k l
    rw [hs k l]
    by_cases hk : k = 1
    · subst hk
      by_cases hl : l = 0 <;> simp [hl, emitted]
    · rw [if_neg (by omega), if_neg (by tauto)]

/-- C6 as amended, at `T = 2`, `m = 5` (target depth `-10`, five bands) and at `Z = -10` for
the slice thickness 5000 (one band). -/
theorem C6_band_count_witness :
    ((1 : ℚ) / 1000000 < 2 ∧ (-5000 : ℚ) ≤ -10 ∧ (-10 : ℚ) < -(1 / 100000)) ∧
    ((∀ fuel, 5 ≤ fuel →
      ∃ out, line_to 3 fuel ⟨1, 2, 0, 0, -((5 : Nat) * 2), false⟩ ⟨"STL path", []⟩ 1 0
            (-((5 : Nat) * 2))
          = some (⟨1, 2, 1, 0, -((5 : Nat) * 2), false⟩, out) ∧
        ∀ k l, segs_at out k l = segs_at ⟨"STL path", []⟩ k l ++
          (if l = 0 ∧ 1 ≤ k ∧ k ≤ 5
            then [⟨0, 0, -((5 : Nat) * 2) + ((k - 1 : Nat) : ℚ) * 2,
                    1, 0, -((5 : Nat) * 2) + ((k - 1 : Nat) : ℚ) * 2⟩]
            else [])) ∧
    (in_material (-10) (-10) ∧ ¬ in_material (-10 + 5000) (-10 + 5000) ∧
      ∀ fuel, 1 ≤ fuel →
        ∃ out, line_to 3 fuel ⟨1, 5000, 0, 0, -10, false⟩ ⟨"STL path", []⟩ 1 0 (-10)
            = some (⟨1, 5000, 1, 0, -10, false⟩, out) ∧
          ∀ k l, segs_at out k l = segs_at ⟨"STL path", []⟩ k l ++
            (if l = 0 ∧ k = 1 then [⟨0, 0, -10, 1, 0, -10⟩] else []))) :=
  ⟨⟨by norm_num, by norm_num, by norm_num⟩,
    C6_band_count 3 2 (-10) 0 0 1 0 1 5 ⟨"STL path", []⟩
      (by norm_num) (by norm_num) (by norm_num)⟩

/-- C7 as stated fails at previous `Z1 = -0.000005`, new `Z2 = 0`, `T = 1`: both values are
at or above `-0.00001`, but `Z1` is below the threshold `-0.000001` that the loop applies
to it, so band 0 and band 1 are created and band 1 receives a segment. -/
theorem C7_segment_above_1e5 :
    -(1 / 100000) ≤ (-(1 / 200000) : ℚ) ∧ -(1 / 100000) ≤ (0 : ℚ) ∧
    (line_to 3 5 ⟨1, 1, 0, 0, -(1 / 200000), false⟩ ⟨"STL path", []⟩ 1 0 0).map
        (fun r => (r.2.tooldepths.length, segs_at r.2 1 0))
      = some (2, [⟨0, 0, -(1 / 200000), 1, 0, 0⟩]) := by
  refine ⟨by norm_num, by norm_num, by decide!⟩

/-- C7 as amended: for every non-first call of `line_to` in which the previous point's `Z1`
is at or above `-0.000001` and the new point's `Z2` is at or above `-0.00001`, the call
returns for every fuel, the shape is unchanged (no segment, band or level is created), and
the previous-point state is updated to `(x2,y2,z2)`. -/
theorem C7_no_geometry_above_material (diam : ℚ) (fuel : Nat) (g : Globals)
    (input : inputshape) (X2 Y2 Z2 : ℚ) (hfirst : g.first = false)
    (h1 : -(1 / 1000000) ≤ g.last_Z) (h2 : -(1 / 100000) ≤ Z2) :
    line_to diam fuel g input X2 Y2 Z2
      = some ({ g with last_X := X2, last_Y := Y2, last_Z := Z2 }, input) := by
  have hout : ¬ in_material g.last_Z Z2 := by
    unfold in_material; push_neg; exact ⟨h1, h2⟩
  simp only [line_to, hfirst, Bool.false_eq_true, if_false]
  rw [line_to_loop_done _ _ _ _ _ _ _ _ _ _ _ hout]

/-- C7 as amended, at previous point `(0,0,0)`, new point `(1,0,0.5)`, with no fuel. -/
theorem C7_no_geometry_above_material_witness :
    ((false = false) ∧ -(1 / 1000000) ≤ (0 : ℚ) ∧ -(1 / 100000) ≤ (1 / 2 : ℚ)) ∧
    line_to 3 0 ⟨1, 2, 0, 0, 0, false⟩ ⟨"STL path", []⟩ 1 0 (1 / 2)
      = some (⟨1, 2, 1, 0, 1 / 2, false⟩, ⟨"STL path", []⟩) :=
  ⟨⟨rfl, by norm_num, by norm_num⟩,
    C7_no_geometry_above_material 3 0 ⟨1, 2, 0, 0, 0, false⟩ ⟨"STL path", []⟩ 1 0 (1 / 2)
      rfl (by norm_num) (by norm_num)⟩

/-- C8 as stated fails at `T = 2`, previous point `(0,0,0)`, new point `(1,0,-5)`: the
segment emitted into band 1 runs from `Z = 0` to `Z = -5`, so its endpoint `Z` values
differ by 5, more than `T`. -/
theorem C8_segment_spans_more_than_T :
    (line_to 3 3 ⟨1, 2, 0, 0, 0, false⟩ ⟨"STL path", []⟩ 1 0 (-5)).map
        (fun r => segs_at r.2 1 0)
      = some [⟨0, 0, 0, 1, 0, -5⟩]
    ∧ ¬ |(0 : ℚ) - (-5)| < 2 := by
  refine ⟨by decide!, by norm_num⟩

/-- C8 as amended: for every segment a non-first call of `line_to` emits under slice
thickness `T > 0`, the endpoint `Z` values are those of the previous and the new point
raised by the same multiple of `T`; they differ by exactly `z1 - z2`, so they differ by less
than `T` (lie within one common half-open interval of width `T`) exactly when the `Z` values
of the two points do. -/
theorem C8_segment_Z_span (diam : ℚ) (g : Globals) (input : inputshape) (X2 Y2 Z2 : ℚ)
    (hT : 0 < g.tooldepth) (hfirst : g.first = false) :
    ∃ n : Nat, ∀ fuel, n ≤ fuel →
      ∃ g1 out, line_to diam fuel g input X2 Y2 Z2 = some (g1, out) ∧
        ∀ k l, ∃ new, segs_at out k l = segs_at input k l ++ new ∧
          ∀ s ∈ new,
            (∃ j : Nat, s.Z1 = g.last_Z + j * g.tooldepth ∧ s.Z2 = Z2 + j * g.tooldepth) ∧
            s.Z1 - s.Z2 = g.last_Z - Z2 ∧
            (|s.Z1 - s.Z2| < g.tooldepth ↔ |g.last_Z - Z2| < g.tooldepth) := by
  obtain ⟨n, hn⟩ := trip_count_exists g.tooldepth hT g.last_Z Z2
  refine ⟨n, ?_⟩
  intro fuel hfuel
  obtain ⟨out, hout, hsegs⟩ := line_to_spec diam g input X2 Y2 Z2 hfirst n hn fuel hfuel
  refine ⟨_, out, hout, ?_⟩
  intro k l
  refine ⟨_, hsegs k l, ?_⟩
  intro s hs
  split_ifs at hs with hc
  · rw [List.mem_singleton] at hs
    subst hs
    have hd : (emitted g.tooldepth g.last_X g.last_Y g.last_Z X2 Y2 Z2 (k - 1)).Z1
        - (emitted g.tooldepth g.last_X g.last_Y g.last_Z X2 Y2 Z2 (k - 1)).Z2
        = g.last_Z - Z2 := by
      simp only [emitted]; ring
    exact ⟨⟨k - 1, rfl, rfl⟩, hd, by rw [hd]⟩
  · exact absurd hs (List.not_mem_nil s)

/-- C8 as amended, at `T = 2`, previous point `(0,0,0)`, new point `(1,0,-5)`. -/
theorem C8_segment_Z_span_witness :
    ((0 : ℚ) < 2 ∧ false = false) ∧
    ∃ n : Nat, ∀ fuel, n ≤ fuel →
      ∃ g1 out, line_to 3 fuel ⟨1, 2, 0, 0, 0, false⟩ ⟨"STL path", []⟩ 1 0 (-5)
          = some (g1, out) ∧
        ∀ k l, ∃ new, segs_at out k l = segs_at ⟨"STL path", []⟩ k l ++ new ∧
          ∀ s ∈ new,
            (∃ j : Nat, s.Z1 = 0 + j * 2 ∧ s.Z2 = -5 + j * 2) ∧
            s.Z1 - s.Z2 = 0 - (-5) ∧
            (|s.Z1 - s.Z2| < 2 ↔ |(0 : ℚ) - (-5)| < 2) :=
  ⟨⟨by norm_num, rfl⟩,
    C8_segment_Z_span 3 ⟨1, 2, 0, 0, 0, false⟩ ⟨"STL path", []⟩ 1 0 (-5) (by norm_num) rfl⟩

/-- C9: for a shape that starts with no bands and any finite succession of `line_to` calls
(each with or without `first` set beforehand) under a slice thickness `T > 0`, the
succession returns for all large enough fuel, and in the shape it returns: band 0 holds no
level and no segment; the band indices in use are closed downwards (contiguous from 0) and
no band present after a prefix of the calls is missing at the end; and every band of index
1 or more holds exactly one level, whose level index is 0, whose offset and diameter equal
the tool diameter, whose tool identifier is the active tool and whose `no_sort` is set. -/
theorem C9_band_structure (diam : ℚ) (g : Globals) (nm : String)
    (calls : List (Bool × ℚ × ℚ × ℚ)) (hT : 0 < g.tooldepth) :
    (∃ N r, ∀ fuel, N ≤ fuel → path_calls diam fuel g ⟨nm, []⟩ calls = some r) ∧
    ∀ fuel g1 out, path_calls diam fuel g ⟨nm, []⟩ calls = some (g1, out) →
      (∀ td, out.tooldepths[0]? = some td → td.toollevels = []) ∧
      (∀ l, segs_at out 0 l = []) ∧
      (∀ k j : Nat, (∃ td, out.tooldepths[k]? = some td) → j ≤ k →
        ∃ td, out.tooldepths[j]? = some td) ∧
      (∀ pre post gp sp, calls = pre ++ post →
        path_calls diam fuel g ⟨nm, []⟩ pre = some (gp, sp) →
        sp.tooldepths.length ≤ out.tooldepths.length) ∧
      (∀ k td, 1 ≤ k → out.tooldepths[k]? = some td →
        ∃ lv, td.toollevels = [lv] ∧ lv.level = 0 ∧ lv.offset = diam ∧ lv.diameter = diam ∧
          lv.toolnr = g.toolnr ∧ lv.no_sort = true) := by
  refine ⟨path_calls_total diam calls g ⟨nm, []⟩ hT, ?_⟩
  intro fuel g1 out h
  have hok := path_calls_bands_ok diam fuel calls g ⟨nm, []⟩ g1 out (bands_ok_empty _ _ _) h
  refine ⟨hok.1, ?_, ?_, ?_, hok.2⟩
  · intro l
    unfold segs_at
    cases h0 : out.tooldepths[0]? with
    | none => rfl
    | some td => simp [tooldepth.segs, hok.1 td h0]
  · intro k j ⟨td, hk⟩ hj
    have hklt : k < out.tooldepths.length := by
      by_contra hc
      rw [List.getElem?_eq_none (by omega)] at hk
      exact absurd hk (by simp)
    exact ⟨out.tooldepths[j], List.getElem?_eq_getElem (by omega)⟩
  · intro pre post gp sp hcalls hpre
    subst hcalls
    rw [path_calls_append, hpre] at h
    exact path_calls_length diam fuel post gp sp g1 out h

/-- C9 for the succession: first point `(0,0,-3)`, then `(1,0,-3)`, then `(2,0,-1)`, with
`T = 2`. -/
theorem C9_band_structure_witness :
    (0 : ℚ) < 2 ∧
    ((∃ N r, ∀ fuel, N ≤ fuel →
        path_calls 3 fuel ⟨7, 2, 0, 0, 0, false⟩ ⟨"STL path", []⟩
          [(true, 0, 0, -3), (false, 1, 0, -3), (false, 2, 0, -1)] = some r) ∧
    ∀ fuel g1 out,
      path_calls 3 fuel ⟨7, 2, 0, 0, 0, false⟩ ⟨"STL path", []⟩
          [(true, 0, 0, -3), (false, 1, 0, -3), (false, 2, 0, -1)] = some (g1, out) →
      (∀ td, out.tooldepths[0]? = some td → td.toollevels = []) ∧
      (∀ l, segs_at out 0 l = []) ∧
      (∀ k j : Nat, (∃ td, out.tooldepths[k]? = some td) → j ≤ k →
        ∃ td, out.tooldepths[j]? = some td) ∧
      (∀ pre post gp sp, [(true, 0, 0, -3), (false, 1, 0, -3), (false, 2, 0, -1)] = pre ++ post →
        path_calls 3 fuel ⟨7, 2, 0, 0, 0, false⟩ ⟨"STL path", []⟩ pre = some (gp, sp) →
        sp.tooldepths.length ≤ out.tooldepths.length) ∧
      (∀ k td, 1 ≤ k → out.tooldepths[k]? = some td →
        ∃ lv, td.toollevels = [lv] ∧ lv.level = 0 ∧ lv.offset = 3 ∧ lv.diameter = 3 ∧
          lv.toolnr = 7 ∧ lv.no_sort = true)) :=
  ⟨by norm_num,
    C9_band_structure 3 ⟨7, 2, 0, 0, 0, false⟩ "STL path"
      [(true, 0, 0, -3), (false, 1, 0, -3), (false, 2, 0, -1)] (by norm_num)⟩

/-- C10 fails on the code, by the defect of C3: the `Z` handed to `line_to` is
`-cutout_depth + d + offset` with `d` sampled over the tool diameter, not over the tool's
radius.  For `spike_env` (tool diameter 2, stepover 2, spike of height 1 at the origin),
cutout depth 10 and no stock to leave, the roughing pass leaves in band 1 the segments
`(-2,-2,-10)` to `(0,-2,-9)` and `(-2,0,-9)` to `(0,0,-9)`, while at the sample points
`(0,-2)` and `(-2,0)` the value `-cutout_depth + effective_height + offset` for the radius
1 is `-10`. -/
theorem C10_handed_Z_from_diameter :
    (create_toolpath_raster spike_env 4 7 ⟨0, 5000, 0, 0, 0, false⟩ spike_scene 7 true).map
        (fun st => (st.input.tooldepths.length, segs_at st.input 1 0))
      = some (2, [⟨-2, -2, -10, 0, -2, -9⟩, ⟨-2, 0, -9, 0, 0, -9⟩])
    ∧ -spike_scene.cutout_depth
        + get_height_tool spike_env.get_height 0 (-2) (spike_env.tool_diam 7 / 2)
        + spike_scene.stock_to_leave = -10
    ∧ -spike_scene.cutout_depth
        + get_height_tool spike_env.get_height (-2) 0 (spike_env.tool_diam 7 / 2)
        + spike_scene.stock_to_leave = -10
    ∧ -spike_scene.cutout_depth
        + get_height_tool spike_env.get_height 0 (-2) (spike_env.tool_diam 7)
        + spike_scene.stock_to_leave = -9 := by
  refine ⟨by decide!, by decide!, by decide!, by decide!⟩

/-- C11 as stated fails with the finishing-pass flag set: for tool 8 over `finish_env`
(finishing step 5) the first block runs too, with `Y` as the outer loop, and the first two
segments of band 1 join `(-3,-3)` to `(2,-3)` and `(-3,2)` to `(2,2)`: they share `Y`, not
`X`. -/
theorem C11_flag_set_runs_both_blocks :
    (create_toolpath_raster finish_env 4 8 ⟨0, 5000, 0, 0, 0, false⟩ finish_scene 8 false).map
        (fun st => segs_at st.input 1 0)
      = some [⟨-3, -3, -10, 2, -3, -10⟩, ⟨-3, 2, -10, 2, 2, -10⟩,
              ⟨-3, -3, -10, -3, 2, -10⟩, ⟨2, -3, -10, 2, 2, -10⟩]
    ∧ (-3 : ℚ) ≠ 2 := by
  refine ⟨by decide!, by norm_num⟩

/-- C11 as amended: whatever a finishing pass (`roughing = false`) returns, when the
scene's finishing-pass flag is off every segment of its shape joins two points that share
the same `X` and whose `Y` values differ by exactly `stepover / 1.42` (only the raster
with `X` outer and `Y` inner runs); when the flag is set the raster with `Y` outer and `X`
inner runs first, and every segment either shares `Y` with `X` values `stepover / 1.42`
apart or shares `X` with `Y` values `stepover / 1.42` apart. -/
theorem C11_finishing_direction (env : Env) (F : Nat) (active : Int) (g : Globals)
    (sc : scene) (tool : Int) (st : raster_state)
    (h : create_toolpath_raster env F active g sc tool false = some st) :
    (sc.finishing_pass = false →
      ∀ k l, ∀ seg ∈ segs_at st.input k l,
        seg.X1 = seg.X2 ∧ seg.Y2 - seg.Y1 = env.get_tool_stepover tool / 1.42) ∧
    (sc.finishing_pass = true →
      ∀ k l, ∀ seg ∈ segs_at st.input k l,
        (seg.Y1 = seg.Y2 ∧ seg.X2 - seg.X1 = env.get_tool_stepover tool / 1.42) ∨
        (seg.X1 = seg.X2 ∧ seg.Y2 - seg.Y1 = env.get_tool_stepover tool / 1.42)) := by
  obtain ⟨mid, h1, h2⟩ := create_toolpath_raster_blocks env F active g sc tool false st h
  have hstep : (create_locals env F active sc tool false).stepover
      = env.get_tool_stepover tool / 1.42 := by
    simp [create_locals]
  simp only [Bool.false_or, Bool.not_false, if_true] at h1 h2
  constructor
  · intro hflag
    rw [hflag] at h1
    simp only [Bool.false_eq_true, if_false, Option.some.injEq] at h1
    subst h1
    have key := raster_X_segments env (create_locals env F active sc tool false)
      (fun _ => False) F _ _ st
      (fun k l seg hs => by rw [segs_at_empty] at hs; exact absurd hs (List.not_mem_nil seg)) h2
    intro k l seg hmem
    rcases key k l seg hmem with hf | hok
    · exact absurd hf id
    · rw [hstep] at hok; exact hok
  · intro hflag
    rw [hflag] at h1
    simp only [if_true] at h1
    have k1 := raster_Y_segments env (create_locals env F active sc tool false)
      (fun _ => False) F _ _ mid
      (fun k l seg hs => by rw [segs_at_empty] at hs; exact absurd hs (List.not_mem_nil seg)) h1
    have k2 := raster_X_segments env (create_locals env F active sc tool false)
      (fun seg => seg.Y1 = seg.Y2 ∧
        seg.X2 - seg.X1 = (create_locals env F active sc tool false).stepover) F _ _ st
      (fun k l seg hs => by
        rcases k1 k l seg hs with hf | hok
        · exact absurd hf id
        · exact Or.inl hok) h2
    intro k l seg hmem
    have := k2 k l seg hmem
    rw [hstep] at this
    exact this

/-- C11 as amended, for the finishing pass of tool 8 over `finish_env` with the flag off:
the raster returns `finish_result`, whose two segments run from `Y = -3` to `Y = 2` at
`X = -3` and at `X = 2`. -/
theorem C11_finishing_direction_witness :
    create_toolpath_raster finish_env 4 8 ⟨0, 5000, 0, 0, 0, false⟩ flat_scene 8 false
        = some finish_result ∧
    flat_scene.finishing_pass = false ∧
    ∀ k l, ∀ seg ∈ segs_at finish_result.input k l,
      seg.X1 = seg.X2 ∧ seg.Y2 - seg.Y1 = finish_env.get_tool_stepover 8 / 1.42 :=
  ⟨by decide!, rfl,
    (C11_finishing_direction finish_env 4 8 ⟨0, 5000, 0, 0, 0, false⟩ flat_scene 8
      finish_result (by decide!)).1 rfl⟩

/-- C12: whatever a roughing pass (`roughing = true`) returns, every segment of its shape
joins two points that share the same `Y` and whose `X` values differ by exactly the tool's
full stepover: the raster runs with `Y` as the outer and `X` as the inner loop, and no
segment joins points of two different raster lines. -/
theorem C12_roughing_direction (env : Env) (F : Nat) (active : Int) (g : Globals)
    (sc : scene) (tool : Int) (st : raster_state)
    (h : create_toolpath_raster env F active g sc tool true = some st) :
    ∀ k l, ∀ seg ∈ segs_at st.input k l,
      seg.Y1 = seg.Y2 ∧ seg.X2 - seg.X1 = env.get_tool_stepover tool := by
  obtain ⟨mid, h1, h2⟩ := create_toolpath_raster_blocks env F active g sc tool true st h
  simp only [Bool.true_or, if_true, Bool.not_true, Bool.false_eq_true, if_false,
    Option.some.injEq] at h1 h2
  subst h2
  have key := raster_Y_segments env (create_locals env F active sc tool true)
    (fun _ => False) F _ _ mid
    (fun k l seg hs => by rw [segs_at_empty] at hs; exact absurd hs (List.not_mem_nil seg)) h1
  intro k l seg hmem
  rcases key k l seg hmem with hf | hok
  · exact absurd hf id
  · simpa [create_locals] using hok

/-- C12 for the roughing pass of tool 8 over `flat_env` (stepover 4): the raster returns
`flat_rough_result`, whose two segments run from `X = -3` to `X = 1` at `Y = -3` and at
`Y = 1`. -/
theorem C12_roughing_direction_witness :
    create_toolpath_raster flat_env 4 8 ⟨0, 5000, 0, 0, 0, false⟩ flat_scene 8 true
        = some flat_rough_result ∧
    segs_at flat_rough_result.input 1 0
        = [⟨-3, -3, -(19 / 2), 1, -3, -(19 / 2)⟩, ⟨-3, 1, -(19 / 2), 1, 1, -(19 / 2)⟩] ∧
    ∀ k l, ∀ seg ∈ segs_at flat_rough_result.input k l,
      seg.Y1 = seg.Y2 ∧ seg.X2 - seg.X1 = flat_env.get_tool_stepover 8 :=
  ⟨by decide!, by decide!,
    C12_roughing_direction flat_env 4 8 ⟨0, 5000, 0, 0, 0, false⟩ flat_scene 8
      flat_rough_result (by decide!)⟩

/-- C14: for every radius `R`, every point `(x,y)` and every flat height field returning
the constant elevation `E`, `get_height_tool` returns exactly `E`. -/
theorem C14_flat_field (E x y R : ℚ) : get_height_tool (fun _ _ => E) x y R = E := by
  simp [get_height_tool]

/-- C15: for every radius `R > 0` and every height field that equals `H` at the origin and
a background value `B < H` everywhere else, `get_height_tool` returns `H` at `(0,0)` with
radius `R` and returns `B` at `(2R,2R)` with radius `R`. -/
theorem C15_spike_field (h : ℚ → ℚ → ℚ) (H B R : ℚ) (hR : 0 < R) (hB : B < H)
    (h0 : h 0 0 = H) (hb : ∀ x y, ¬ (x = 0 ∧ y = 0) → h x y = B) :
    get_height_tool h 0 0 R = H ∧ get_height_tool h (2 * R) (2 * R) R = B := by
  have hle : ∀ x y, h x y ≤ H := by
    intro x y
    by_cases hxy : x = 0 ∧ y = 0
    · rw [hxy.1, hxy.2, h0]
    · rw [hb x y hxy]; exact le_of_lt hB
  constructor
  · obtain ⟨hub, p, _, hp⟩ := get_height_tool_max h 0 0 R
    apply le_antisymm
    · rw [hp]; exact hle _ _
    · have := hub (0, 0) (by simp [stencil9])
      rw [h0] at this
      exact this
  · obtain ⟨_, p, hmem, hp⟩ := get_height_tool_max h (2 * R) (2 * R) R
    rw [hp]
    apply hb
    intro hz
    have hq : (0 : ℚ) < R / 1.4 := by positivity
    have hq2 : R / 1.4 < R := by
      rw [div_lt_iff₀ (by norm_num)]
      linarith
    simp only [stencil9, List.mem_cons, List.mem_singleton, List.not_mem_nil, or_false] at hmem
    rcases hmem with rfl | rfl | rfl | rfl | rfl | rfl | rfl | rfl | rfl <;>
      simp only at hz <;> linarith [hz.1, hz.2]

/-- C15 for the field that is 5 at the origin and 1 elsewhere, with `R = 3`. -/
theorem C15_spike_field_witness :
    ((0 : ℚ) < 3 ∧ (1 : ℚ) < 5) ∧
    get_height_tool (fun x y : ℚ => if x = 0 ∧ y = 0 then 5 else 1) 0 0 3 = 5 ∧
    get_height_tool (fun x y : ℚ => if x = 0 ∧ y = 0 then 5 else 1) (2 * 3) (2 * 3) 3 = 1 :=
  ⟨⟨by norm_num, by norm_num⟩,
    C15_spike_field (fun x y : ℚ => if x = 0 ∧ y = 0 then 5 else 1) 5 1 3
      (by norm_num) (by norm_num) (by simp) (fun x y hxy => by simp [hxy])⟩

/-- C16: a pass of `create_toolpath` (roughing or not) for the same scene, tool, slice
thickness and height field does not depend on the values of `toolnr`, `last_X`, `last_Y`,
`last_Z` and `first` it starts from: from any two such states the scene it returns is the
same (or both runs exhaust the fuel); in particular, generating the pass a second time,
from the state and scene the first run left, appends the same shape again. -/
theorem C16_hidden_state (env : Env) (F : Nat) (active : Int) (g g2 : Globals) (sc : scene)
    (tool : Int) (roughing : Bool) (hT : g.tooldepth = g2.tooldepth) :
    (create_toolpath env F active g sc tool roughing).map (fun r => r.2)
      = (create_toolpath env F active g2 sc tool roughing).map (fun r => r.2) ∧
    ∀ g1 sc1, create_toolpath env F active g sc tool roughing = some (g1, sc1) →
      ∃ shape gEnd, sc1.shapes = sc.shapes ++ [shape] ∧
        create_toolpath env F active g1 sc1 tool roughing
          = some (gEnd, { sc1 with shapes := sc1.shapes ++ [shape] }) := by
  constructor
  · have hrel := create_toolpath_raster_same env F active g g2 sc tool roughing hT
    unfold create_toolpath
    cases h1 : create_toolpath_raster env F active g sc tool roughing with
    | none =>
      cases h2 : create_toolpath_raster env F active g2 sc tool roughing with
      | none => rfl
      | some b => rw [h1, h2] at hrel; exact absurd hrel id
    | some a =>
      cases h2 : create_toolpath_raster env F active g2 sc tool roughing with
      | none => rw [h1, h2] at hrel; exact absurd hrel id
      | some b =>
        rw [h1, h2] at hrel
        simp only [Option.map_some', hrel.1]
  · intro g1 sc1 h
    unfold create_toolpath at h
    cases h1 : create_toolpath_raster env F active g sc tool roughing with
    | none => rw [h1] at h; exact absurd h (by simp)
    | some a =>
      rw [h1] at h
      simp only [Option.some.injEq, Prod.mk.injEq] at h
      obtain ⟨hg1, hsc1⟩ := h
      have hTa := create_toolpath_raster_tooldepth env F active g sc tool roughing a h1
      have hrel := create_toolpath_raster_same env F active g g1 sc tool roughing
        (by rw [← hg1, hTa])
      rw [h1] at hrel
      cases h2 : create_toolpath_raster env F active g1 sc tool roughing with
      | none => rw [h2] at hrel; exact absurd hrel id
      | some b =>
        rw [h2] at hrel
        refine ⟨a.input, b.g, by rw [← hsc1], ?_⟩
        unfold create_toolpath
        rw [← hsc1, create_toolpath_raster_shapes, h2, hrel.1]

/-- C16 for the roughing pass of tool 8 over `flat_env`: it returns the same shape from
the state `(0, 5000, 0, 0, 0, false)` and from the state `(3, 5000, 9, 9, -9, true)`. -/
theorem C16_hidden_state_witness :
    ((5000 : ℚ) = 5000 ∧
      (create_toolpath flat_env 4 8 ⟨3, 5000, 9, 9, -9, true⟩ flat_scene 8 true).map
          (fun r => r.2.shapes) = some [flat_rough_result.input]) ∧
    ((create_toolpath flat_env 4 8 ⟨0, 5000, 0, 0, 0, false⟩ flat_scene 8 true).map
        (fun r => r.2)
      = (create_toolpath flat_env 4 8 ⟨3, 5000, 9, 9, -9, true⟩ flat_scene 8 true).map
          (fun r => r.2) ∧
    ∀ g1 sc1,
      create_toolpath flat_env 4 8 ⟨0, 5000, 0, 0, 0, false⟩ flat_scene 8 true
          = some (g1, sc1) →
      ∃ shape gEnd, sc1.shapes = flat_scene.shapes ++ [shape] ∧
        create_toolpath flat_env 4 8 g1 sc1 8 true
          = some (gEnd, { sc1 with shapes := sc1.shapes ++ [shape] })) :=
  ⟨⟨rfl, by decide!⟩,
    C16_hidden_state flat_env 4 8 ⟨0, 5000, 0, 0, 0, false⟩ ⟨3, 5000, 9, 9, -9, true⟩
      flat_scene 8 true rfl⟩

/-- C17: when `line_to` is called with the first-point flag set, for every fuel, every
point and every stored previous point, it returns with the point recorded as the previous
point, the flag cleared, and the shape unchanged (no segment, band or level is added). -/
theorem C17_first_point (diam : ℚ) (fuel : Nat) (g : Globals) (input : inputshape)
    (X2 Y2 Z2 : ℚ) (hfirst : g.first = true) :
    line_to diam fuel g input X2 Y2 Z2
      = some (⟨g.toolnr, g.tooldepth, X2, Y2, Z2, false⟩, input) := by
  simp only [line_to, hfirst, if_true]

/-- C17 for a first point at depth `-7` with no fuel and a stored previous point at depth
`-9`. -/
theorem C17_first_point_witness :
    (true = true) ∧
    line_to 3 0 ⟨1, 2, 4, 5, -9, true⟩ ⟨"STL path", []⟩ 1 0 (-7)
      = some (⟨1, 2, 1, 0, -7, false⟩, ⟨"STL path", []⟩) :=
  ⟨rfl, C17_first_point 3 0 ⟨1, 2, 4, 5, -9, true⟩ ⟨"STL path", []⟩ 1 0 (-7) rfl⟩

/-- C18 as stated fails at `T = 2`, previous point `(0,0,-1)`, new point `(1,0,-1)` on a
shape with no bands: the call adds the first geometry, after which band 0 still holds no
level and band 1 holds one. -/
theorem C18_band0_stays_empty :
    (line_to 3 3 ⟨1, 2, 0, 0, -1, false⟩ ⟨"STL path", []⟩ 1 0 (-1)).map
        (fun r => r.2.tooldepths.map (fun td => td.toollevels.length))
      = some [0, 1] := by
  decide!

/-- C18 as amended: the first time geometry is added to a shape that has no bands (a
non-first call of `line_to` whose loop guard holds, with `T > 0`), the call returns for
all large enough fuel, and in the shape it returns band 0 and band 1 exist, the level list
of band 0 is still empty, and the level list of band 1 holds exactly one level. -/
theorem C18_first_geometry (diam : ℚ) (g : Globals) (nm : String) (X2 Y2 Z2 : ℚ)
    (hT : 0 < g.tooldepth) (hfirst : g.first = false) (hin : in_material g.last_Z Z2) :
    (∃ N r, ∀ fuel, N ≤ fuel → line_to diam fuel g ⟨nm, []⟩ X2 Y2 Z2 = some r) ∧
    ∀ fuel g1 out, line_to diam fuel g ⟨nm, []⟩ X2 Y2 Z2 = some (g1, out) →
      ∃ td0 td1 lv, out.tooldepths[0]? = some td0 ∧ td0.toollevels = [] ∧
        out.tooldepths[1]? = some td1 ∧ td1.toollevels = [lv] ∧ lv.toolpaths ≠ [] := by
  constructor
  · obtain ⟨N, r, hr⟩ := line_to_total diam g ⟨nm, []⟩ X2 Y2 Z2 hT
    exact ⟨N, r, fun fuel hf => line_to_mono diam N fuel g _ X2 Y2 Z2 r hf hr⟩
  · intro fuel g1 out h
    have hok := line_to_bands_ok diam fuel g ⟨nm, []⟩ X2 Y2 Z2 g1 out (bands_ok_empty _ _ _) h
    obtain ⟨n, hn⟩ := trip_count_exists g.tooldepth hT g.last_Z Z2
    have hn1 : 1 ≤ n := by
      by_contra hc
      obtain rfl : n = 0 := by omega
      exact hn.2 (by simpa using hin)
    have hsegs := line_to_segs_of_some diam fuel g ⟨nm, []⟩ X2 Y2 Z2 g1 out hfirst n hn h 1 0
    rw [if_pos ⟨rfl, le_rfl, hn1⟩] at hsegs
    have hlen : 1 < out.tooldepths.length := by
      by_contra hc
      simp only [segs_at] at hsegs
      rw [List.getElem?_eq_none (by omega)] at hsegs
      simp at hsegs
    obtain ⟨lv, hlv, _⟩ := hok.2 1 out.tooldepths[1] le_rfl (List.getElem?_eq_getElem hlen)
    refine ⟨out.tooldepths[0], out.tooldepths[1], lv,
      List.getElem?_eq_getElem (by omega),
      hok.1 _ (List.getElem?_eq_getElem (by omega)),
      List.getElem?_eq_getElem hlen, hlv, ?_⟩
    intro hempty
    simp only [segs_at] at hsegs
    rw [List.getElem?_eq_getElem hlen] at hsegs
    simp only [tooldepth.segs, hlv, List.getElem?_cons_zero, hempty] at hsegs
    simp at hsegs

/-- C18 as amended, at `T = 2`, previous point `(0,0,-1)`, new point `(1,0,-1)`. -/
theorem C18_first_geometry_witness :
    ((0 : ℚ) < 2 ∧ false = false ∧ in_material (-1) (-1)) ∧
    ((∃ N r, ∀ fuel, N ≤ fuel →
        line_to 3 fuel ⟨1, 2, 0, 0, -1, false⟩ ⟨"STL path", []⟩ 1 0 (-1) = some r) ∧
    ∀ fuel g1 out,
      line_to 3 fuel ⟨1, 2, 0, 0, -1, false⟩ ⟨"STL path", []⟩ 1 0 (-1) = some (g1, out) →
      ∃ td0 td1 lv, out.tooldepths[0]? = some td0 ∧ td0.toollevels = [] ∧
        out.tooldepths[1]? = some td1 ∧ td1.toollevels = [lv] ∧ lv.toolpaths ≠ []) :=
  ⟨⟨by norm_num, rfl, by decide!⟩,
    C18_first_geometry 3 ⟨1, 2, 0, 0, -1, false⟩ "STL path" 1 0 (-1)
      (by norm_num) rfl (by decide!)⟩

/-- C20: for a shape that starts with no bands and any finite succession of `line_to` calls
under a slice thickness `T > 0`, the succession returns for all large enough fuel, and in
the shape it returns: all segments are in level 0; for every `k ≥ 1` band `k + 1` holds at
most as many segments as band `k`, and every segment of band `k + 1` is a segment of band
`k` raised by `T` (a call that writes to band `k + 1` also writes to band `k`); so band 1
holds the most segments, and they are the deepest ones. -/
theorem C20_bands_nested (diam : ℚ) (g : Globals) (nm : String)
    (calls : List (Bool × ℚ × ℚ × ℚ)) (hT : 0 < g.tooldepth) :
    (∃ N r, ∀ fuel, N ≤ fuel → path_calls diam fuel g ⟨nm, []⟩ calls = some r) ∧
    ∀ fuel g1 out, path_calls diam fuel g ⟨nm, []⟩ calls = some (g1, out) →
      (∀ k l, l ≠ 0 → segs_at out k l = []) ∧
      (∀ k, 1 ≤ k → (segs_at out (k + 1) 0).length ≤ (segs_at out k 0).length) ∧
      (∀ k, 1 ≤ k → (segs_at out k 0).length ≤ (segs_at out 1 0).length) ∧
      (∀ k, 1 ≤ k → ∀ x ∈ segs_at out (k + 1) 0, ∃ y ∈ segs_at out k 0,
        x = ⟨y.X1, y.Y1, y.Z1 + g.tooldepth, y.X2, y.Y2, y.Z2 + g.tooldepth⟩) := by
  refine ⟨path_calls_total diam calls g ⟨nm, []⟩ hT, ?_⟩
  intro fuel g1 out h
  obtain ⟨ha, hb, hd⟩ := path_calls_bands_nested diam fuel calls g ⟨nm, []⟩ g1 out hT
    (bands_nested_empty _ _) h
  refine ⟨hb, ha, ?_, hd⟩
  intro k hk
  induction k with
  | zero => omega
  | succ k ih =>
    by_cases hk0 : k = 0
    · subst hk0; exact le_rfl
    · exact le_trans (ha k (by omega)) (ih (by omega))

/-- C20 for the succession: first point `(0,0,-3)`, then `(1,0,-3)`, then `(2,0,-1)`, with
`T = 2`; it leaves two segments in band 1 and one in band 2. -/
theorem C20_bands_nested_witness :
    ((0 : ℚ) < 2 ∧
      (path_calls 3 4 ⟨7, 2, 0, 0, 0, false⟩ ⟨"STL path", []⟩
          [(true, 0, 0, -3), (false, 1, 0, -3), (false, 2, 0, -1)]).map
        (fun r => (segs_at r.2 1 0, segs_at r.2 2 0, segs_at r.2 3 0))
        = some ([⟨0, 0, -3, 1, 0, -3⟩, ⟨1, 0, -3, 2, 0, -1⟩], [⟨0, 0, -1, 1, 0, -1⟩,
            ⟨1, 0, -1, 2, 0, 1⟩], [])) ∧
    ((∃ N r, ∀ fuel, N ≤ fuel →
        path_calls 3 fuel ⟨7, 2, 0, 0, 0, false⟩ ⟨"STL path", []⟩
          [(true, 0, 0, -3), (false, 1, 0, -3), (false, 2, 0, -1)] = some r) ∧
    ∀ fuel g1 out,
      path_calls 3 fuel ⟨7, 2, 0, 0, 0, false⟩ ⟨"STL path", []⟩
          [(true, 0, 0, -3), (false, 1, 0, -3), (false, 2, 0, -1)] = some (g1, out) →
      (∀ k l, l ≠ 0 → segs_at out k l = []) ∧
      (∀ k, 1 ≤ k → (segs_at out (k + 1) 0).length ≤ (segs_at out k 0).length) ∧
      (∀ k, 1 ≤ k → (segs_at out k 0).length ≤ (segs_at out 1 0).length) ∧
      (∀ k, 1 ≤ k → ∀ x ∈ segs_at out (k + 1) 0, ∃ y ∈ segs_at out k 0,
        x = ⟨y.X1, y.Y1, y.Z1 + 2, y.X2, y.Y2, y.Z2 + 2⟩)) :=
  ⟨⟨by norm_num, by decide!⟩,
    C20_bands_nested 3 ⟨7, 2, 0, 0, 0, false⟩ "STL path"
      [(true, 0, 0, -3), (false, 1, 0, -3), (false, 2, 0, -1)] (by norm_num)⟩

end Fenrus
